import Mathlib

/-!
Hexascroller tune engine.

A shallow embedding of `src/hexascroller/parsing.cpp` and
`src/hexascroller/music.cpp`: the notation parser (`parseInt`, `parseNote`),
the tune compiler (`playTune`), the one-shot `buzz`, the timer set-up
`startBuzz` and the tick function `tune`.

Conventions of the embedding.

* A C string is a `List Char`; the cursor `char*& p` is the text that is
  still to be read, so `p++` is `List.tail` and `*p` is `cur p`, which reads
  the terminator `NUL` at the end of the list.  The text is ASCII, so the
  `int` value of a character is its code.
* The target is an AVR (`<avr/io.h>`, timer 5): `int` is 16 bits wide and
  `unsigned int` likewise.  Executions that C leaves undefined (signed
  overflow, an array access outside the array) end in a `Fault`.
* The counters `tuneLength`, `tuneIdx` and `noteTicks` are C `int`s that
  start at 0 and are only ever incremented, reset to 0 or set to a count;
  they are natural numbers here.
-/

namespace Hexascroller

/-! ## Definitions -/

/-- Executions with undefined behaviour in C. -/
inductive Fault where
  /-- signed overflow of an `int` in `parseInt` -/
  | intOverflow
  /-- read of `pitches[ni]` with `ni` outside the table -/
  | pitchesOutOfBounds (ni : Int)
  /-- write of `tuneNotes[tl]` with `tl` outside the array -/
  | tuneNotesOutOfBounds (tl : Nat)
  /-- the loop model ran out of fuel (`playTuneLoop_ne_outOfFuel`: it never does) -/
  | outOfFuel
  deriving DecidableEq, Repr

deriving instance DecidableEq for Except

/-- Largest value of a 16-bit `int`. -/
def INT_MAX : Int := 32767

/-- One more than the largest value of a 16-bit `unsigned int`. -/
def UINT_MOD : Int := 65536

/-- The character under the cursor, `*p`; the terminator at the end of the text. -/
def cur (p : List Char) : Char := p.headD (Char.ofNat 0)

/-- The loop of `parseInt`, with the accumulator `v`. -/
def parseIntLoop (v : Int) : List Char → Except Fault (Int × List Char)
  | [] => .ok (v, [])
  | c :: cs =>
    if '0'.toNat ≤ c.toNat ∧ c.toNat ≤ '9'.toNat then
      let v1 := v * 10
      if INT_MAX < v1 then .error .intOverflow
      else
        let v2 := v1 + ((c.toNat : Int) - ('0'.toNat : Int))
        if INT_MAX < v2 then .error .intOverflow
        else parseIntLoop v2 cs
    else .ok (v, c :: cs)

/-- `int parseInt(char*& p)`: the value read and the cursor after it. -/
def parseInt (p : List Char) : Except Fault (Int × List Char) :=
  parseIntLoop 0 p

/-- The `switch` of `parseNote`: the base semitone of a note letter, `none`
for the `default` branch. -/
def noteBase (c : Char) : Option Int :=
  if c = 'a' ∨ c = 'A' then some 0
  else if c = 'b' ∨ c = 'B' then some 2
  else if c = 'c' ∨ c = 'C' then some 3
  else if c = 'd' ∨ c = 'D' then some 5
  else if c = 'e' ∨ c = 'E' then some 7
  else if c = 'f' ∨ c = 'F' then some 8
  else if c = 'g' ∨ c = 'G' then some 10
  else if c = 'r' ∨ c = 'R' then some (-1)
  else none

/-- `int parseNote(char*& p)`: the value returned and the cursor after it. -/
def parseNote (p : List Char) : Int × List Char :=
  match noteBase (cur p) with
  | none => (0, p)
  | some base =>
    let p1 := p.tail
    let (p2, base2) := if cur p1 = '#' then (p1.tail, base + 1) else (p1, base)
    let (p3, base3) := if cur p2 = 'b' then (p2.tail, base2 - 1) else (p2, base2)
    (base3, p3)

def OCTAVES : Nat := 6

def NOTES_PER_OCTAVE : Nat := 12

/-- The table `int pitches[OCTAVES * NOTES_PER_OCTAVE]`. -/
def pitches : List Int :=
  [55, 58, 62, 65, 69, 73, 78, 82, 87, 92, 98, 104,
   110, 117, 123, 131, 139, 147, 156, 165, 175, 185, 196, 208,
   220, 233, 246, 261, 277, 293, 311, 330, 349, 370, 392, 415,
   440, 466, 493, 523, 554, 587, 622, 659, 698, 740, 784, 830,
   880, 932, 988, 1047, 1109, 1175, 1245, 1319, 1397, 1480, 1568, 1661,
   1760, 1865, 1976, 2093, 2217, 2349, 2489, 2637, 2794, 2960, 3136, 3322]

def MAX_TUNE_LEN : Nat := 400

/-- The frequency that marks a rest. -/
def REST : Int := -1

/-- `struct Note`. -/
structure Note where
  /-- `int frequency`, -1 for silent/rest -/
  frequency : Int
  /-- `unsigned int length`, in 32nd notes -/
  length : Nat
  deriving DecidableEq, Repr

/-- The globals of `music.cpp` and the registers of timer 5 that it writes. -/
structure State where
  tuneNotes : Nat → Note
  tuneLength : Nat
  tuneIdx : Nat
  noteTicks : Nat
  DDRL : Nat
  TCCR5A : Nat
  TCCR5B : Nat
  OCR5A : Nat

/-- The state at program start: zero-initialised globals, registers at reset. -/
def initState : State :=
  { tuneNotes := fun _ => { frequency := 0, length := 0 }
    tuneLength := 0, tuneIdx := 0, noteTicks := 0
    DDRL := 0, TCCR5A := 0, TCCR5B := 0, OCR5A := 0 }

/-- What one call of `tune` asks of the tone output: `stop` is the inline
`TCCR5A = 0; TCCR5B = 0;`, `start f` is the call `startBuzz(f)`. -/
inductive ToneOp where
  | stop
  | start (frequency : Int)
  deriving DecidableEq, Repr

/-- `void startBuzz(int frequency)`. -/
def startBuzz (frequency : Int) (st : State) : State :=
  if frequency ≤ 0 then
    { st with TCCR5A := 0, TCCR5B := 0 }
  else
    let period : Int := 2000000 / frequency
    { st with
      DDRL := st.DDRL ||| (1 <<< 3)
      TCCR5A := 0b01000000
      TCCR5B := 0b00001010
      OCR5A := (period % UINT_MOD).toNat }

/-- `void tune()`: the state after the call and the tone operation it issued. -/
def tune (st : State) : State × Option ToneOp :=
  if st.tuneLength ≤ st.tuneIdx then
    ({ st with TCCR5A := 0, TCCR5B := 0 }, some ToneOp.stop)
  else
    let r : State × Option ToneOp :=
      if st.noteTicks = 0 then
        if (st.tuneNotes st.tuneIdx).frequency = -1 then
          ({ st with TCCR5A := 0, TCCR5B := 0 }, some ToneOp.stop)
        else
          (startBuzz (st.tuneNotes st.tuneIdx).frequency st,
            some (ToneOp.start (st.tuneNotes st.tuneIdx).frequency))
      else (st, none)
    let st2 : State := { r.1 with noteTicks := r.1.noteTicks + 1 }
    if (st2.tuneNotes st2.tuneIdx).length ≤ st2.noteTicks then
      ({ st2 with noteTicks := 0, tuneIdx := st2.tuneIdx + 1 }, r.2)
    else (st2, r.2)

/-- `void buzz(int frequency, int duration)`. -/
def buzz (frequency duration : Int) (st : State) : State :=
  let notes1 : Nat → Note :=
    Function.update st.tuneNotes 0 { st.tuneNotes 0 with frequency := frequency }
  let notes2 : Nat → Note :=
    Function.update notes1 1 { notes1 1 with length := (duration % UINT_MOD).toNat }
  { st with tuneNotes := notes2, tuneLength := 1, tuneIdx := 0 }

/-- The result of the `while` loop of `playTune`: the count `tl`, the array
and the cursor at loop exit. -/
structure Compiled where
  tl : Nat
  notes : Nat → Note
  rest : List Char

/-- The `while` loop of `playTune`, one iteration per unit of fuel. -/
def playTuneLoop : Nat → List Char → Nat → (Nat → Note) → Except Fault Compiled
  | 0, _, _, _ => .error .outOfFuel
  | fuel + 1, p, tl, notes =>
    if cur p = Char.ofNat 0 then .ok { tl := tl, notes := notes, rest := p }
    else
      let octave : Int := ((cur p).toNat : Int) - ('0'.toNat : Int)
      let p1 := p.tail
      if cur p1 = Char.ofNat 0 then .ok { tl := tl, notes := notes, rest := p1 }
      else
        let (note, p2) := parseNote p1
        match parseInt p2 with
        | .error e => .error e
        | .ok (len, p3) =>
          let ni : Int := octave * (NOTES_PER_OCTAVE : Int) + note
          let frequency : Except Fault Int :=
            if ni ≤ 0 then .ok (-1)
            else
              match pitches[ni.toNat]? with
              | some f => .ok f
              | none => .error (.pitchesOutOfBounds ni)
          match frequency with
          | .error e => .error e
          | .ok f =>
            if MAX_TUNE_LEN ≤ tl then .error (.tuneNotesOutOfBounds tl)
            else
              let notes1 := Function.update notes tl { frequency := f, length := len.toNat }
              let p4 := if cur p3 = ',' then p3.tail else p3
              playTuneLoop fuel p4 (tl + 1) notes1

/-- `void playTune(char* p)`.  Every iteration of the loop reads at least one
character, so `p.length + 1` units of fuel are enough
(`playTuneLoop_ne_outOfFuel`). -/
def playTune (st : State) (p : List Char) : Except Fault State :=
  match playTuneLoop (p.length + 1) p 0 st.tuneNotes with
  | .error e => .error e
  | .ok c => .ok { st with tuneNotes := c.notes, tuneLength := c.tl, tuneIdx := 0 }

/-- The state after `n` calls of `tune`. -/
def tuneN : Nat → State → State
  | 0, st => st
  | n + 1, st => tuneN n (tune st).1

/-- The tone operations issued by `n` successive calls of `tune`, one entry per call. -/
def ticks : Nat → State → List (Option ToneOp)
  | 0, _ => []
  | n + 1, st => (tune st).2 :: ticks n (tune st).1

/-! ## Specification-side definitions -/

/-- A decimal digit character. -/
def IsDigit (c : Char) : Prop := 48 ≤ c.toNat ∧ c.toNat ≤ 57

instance (c : Char) : Decidable (IsDigit c) := by unfold IsDigit; infer_instance

/-- The value of a digit character. -/
def digitValue (c : Char) : Nat := c.toNat - 48

/-- The base-10 value of a run of digit characters, most significant first. -/
def decimalValue (ds : List Char) : Nat := Nat.ofDigits 10 (ds.reverse.map digitValue)

/-- The note names of `parsing.h` with their numbers, and the rest. -/
def noteNames : List (String × Int) :=
  [("a", 0), ("a#", 1), ("b", 2), ("c", 3), ("c#", 4), ("d", 5), ("d#", 6),
   ("e", 7), ("f", 8), ("f#", 9), ("g", 10), ("g#", 11), ("r", -1)]

/-- A token of the tune notation: an octave digit, a note letter, an optional
accidental and the digits of the duration. -/
structure Token where
  octave : Char
  letter : Char
  accidental : Option Char
  digits : List Char

/-- The note letters a-g and r, in either case. -/
def noteLetters : List Char := "abcdefgrABCDEFGR".toList

/-- A well-formed token: octave digit `'0'..'5'`, a note letter, at most one
accidental `'#'` or `'b'`, and one or more digits whose value fits in an `int`. -/
def Token.Valid (t : Token) : Prop :=
  (48 ≤ t.octave.toNat ∧ t.octave.toNat ≤ 53) ∧ t.letter ∈ noteLetters
    ∧ (t.accidental = none ∨ t.accidental = some '#' ∨ t.accidental = some 'b')
    ∧ t.digits ≠ [] ∧ (∀ c ∈ t.digits, IsDigit c)
    ∧ (decimalValue t.digits : Int) ≤ INT_MAX

instance (t : Token) : Decidable t.Valid := by unfold Token.Valid; infer_instance

/-- The characters of a token. -/
def Token.text (t : Token) : List Char :=
  t.octave :: t.letter :: (t.accidental.toList ++ t.digits)

/-- The text of a tune: its tokens joined by single commas. -/
def tuneText (toks : List Token) : List Char :=
  [','].intercalate (toks.map Token.text)

/-- The number of a note letter in the table of `parsing.h`
(`a a# b c c# d d# e f f# g g#` are 0 to 11), -1 for the rest `r`. -/
def letterSemitone (c : Char) : Int :=
  match ([('a', 0), ('b', 2), ('c', 3), ('d', 5), ('e', 7), ('f', 8), ('g', 10), ('r', -1)] :
      List (Char × Int)).lookup c.toLower with
  | some v => v
  | none => 0

/-- A sharp raises by one semitone, a flat lowers by one. -/
def accidentalShift (a : Option Char) : Int :=
  if a = some '#' then 1 else if a = some 'b' then -1 else 0

/-- The semitone of a token. -/
def Token.semitone (t : Token) : Int := letterSemitone t.letter + accidentalShift t.accidental

/-- The linear note index of a token, `octave * 12 + semitone`. -/
def Token.index (t : Token) : Int := (digitValue t.octave : Int) * 12 + t.semitone

/-- The note a token stands for. -/
def Token.note (t : Token) : Note :=
  { frequency := if t.index ≤ 0 then REST else pitches.getD t.index.toNat 0
    length := decimalValue t.digits }

/-- The array after the notes `ns` are stored from index `tl` on. -/
def storeNotes (notes : Nat → Note) (tl : Nat) : List Note → (Nat → Note)
  | [] => notes
  | n :: ns => storeNotes (Function.update notes tl n) (tl + 1) ns

/-- The tokens of the tune `3a4,3b8,0r2`. -/
def exampleTokens : List Token :=
  [{ octave := '3', letter := 'a', accidental := none, digits := ['4'] },
   { octave := '3', letter := 'b', accidental := none, digits := ['8'] },
   { octave := '0', letter := 'r', accidental := none, digits := ['2'] }]

/-- The token `3a4`. -/
def token3a4 : Token := { octave := '3', letter := 'a', accidental := none, digits := ['4'] }

/-- Bit `PL3` of port L: the pin OC5A, on which timer 5 puts its wave. -/
def PL3 : Nat := 3

/-- Bit `COM5A0` of `TCCR5A`: the pin OC5A toggles on every compare match. -/
def COM5A0 : Nat := 6

/-- Bit `WGM52` of `TCCR5B`: the counter is cleared on compare match (CTC). -/
def WGM52 : Nat := 3

/-- Bit `CS51` of `TCCR5B`: the counter runs on the system clock divided by 8. -/
def CS51 : Nat := 1

/-- The system clock of the board, 16 MHz. -/
def F_CPU : Int := 16000000

/-- The clock of timer 5 under the prescaler of `CS51`. -/
def timerClock : Int := F_CPU / 8

/-- The `stop()` of the tone output: timer 5 is halted and released from its pin. -/
def ToneOutput.stop (st : State) : State :=
  { st with TCCR5A := 0, TCCR5B := 0 }

/-- The `start(frequency)` of the tone output as the specification words it:
the timer is set up for a square wave on its pin, with a period register of
clock / frequency (kept in the 16 bits of the register); `start` with a
frequency `<= 0` is equivalent to `stop`. -/
def ToneOutput.start (frequency : Int) (st : State) : State :=
  if frequency ≤ 0 then ToneOutput.stop st
  else
    { st with
      DDRL := st.DDRL ||| 2 ^ PL3
      TCCR5A := 2 ^ COM5A0
      TCCR5B := 2 ^ WGM52 + 2 ^ CS51
      OCR5A := (timerClock / frequency % 2 ^ 16).toNat }

/-- What a tone operation does to the tone output of the specification. -/
def ToneOp.apply : ToneOp → State → State
  | .stop, st => ToneOutput.stop st
  | .start f, st => ToneOutput.start f st

/-- The transition function of the playback scheduler as the specification
words it: (1) a finished tune stops the tone output and changes nothing else;
(2) at the start of a note the tone output is stopped for a rest and started at
the note frequency otherwise; (3) the tick counter is incremented; (4) when it
has reached the note duration it is reset and the note index advances. -/
def tuneSpec (st : State) : State × Option ToneOp :=
  if st.tuneIdx ≥ st.tuneLength then
    (ToneOp.stop.apply st, some ToneOp.stop)
  else
    let note := st.tuneNotes st.tuneIdx
    let op : Option ToneOp :=
      if st.noteTicks = 0 then
        some (if note.frequency = REST then ToneOp.stop else ToneOp.start note.frequency)
      else none
    let out : State := match op with
      | some o => o.apply st
      | none => st
    let t := st.noteTicks + 1
    if t ≥ note.length then
      ({ out with noteTicks := 0, tuneIdx := st.tuneIdx + 1 }, op)
    else
      ({ out with noteTicks := t }, op)

/-- A state that holds the one-note tune `(f, d)` at its start. -/
def oneNoteState (f : Int) (d : Nat) : State :=
  { initState with
    tuneNotes := Function.update initState.tuneNotes 0 { frequency := f, length := d }
    tuneLength := 1 }

/-- How one pass through the body of the `while` loop of `playTune` ends:
by the `break` after the octave character, or at the end of the body, from
where the loop condition is tested again. -/
inductive BodyResult where
  | exit (c : Compiled)
  | next (c : Compiled)

/-- One pass through the body of the `while` loop of `playTune` (lines 79-92 of
`music.cpp`), entered with the cursor `p`, the count `tl` and the array `notes`. -/
def playTuneBody (p : List Char) (tl : Nat) (notes : Nat → Note) : Except Fault BodyResult :=
  let octave : Int := ((cur p).toNat : Int) - ('0'.toNat : Int)
  let p1 := p.tail
  if cur p1 = Char.ofNat 0 then .ok (.exit { tl := tl, notes := notes, rest := p1 })
  else
    let (note, p2) := parseNote p1
    match parseInt p2 with
    | .error e => .error e
    | .ok (len, p3) =>
      let ni : Int := octave * (NOTES_PER_OCTAVE : Int) + note
      let frequency : Except Fault Int :=
        if ni ≤ 0 then .ok (-1)
        else
          match pitches[ni.toNat]? with
          | some f => .ok f
          | none => .error (.pitchesOutOfBounds ni)
      match frequency with
      | .error e => .error e
      | .ok f =>
        if MAX_TUNE_LEN ≤ tl then .error (.tuneNotesOutOfBounds tl)
        else
          let notes1 := Function.update notes tl { frequency := f, length := len.toNat }
          let p4 := if cur p3 = ',' then p3.tail else p3
          .ok (.next { tl := tl + 1, notes := notes1, rest := p4 })

/-- The note letters a-g and r in lower case. -/
def lowerNoteLetters : List Char := "abcdefgr".toList

/-- The number of characters `parseNote` reads for a sharp: 1 when the text
after the letter begins with `'#'`. -/
def sharpCount (rest : List Char) : Nat := if cur rest = '#' then 1 else 0

/-- The number of characters `parseNote` reads for a flat: 1 when the text
after the letter and the sharp, if any, begins with `'b'`. -/
def flatCount (rest : List Char) : Nat :=
  if cur (rest.drop (sharpCount rest)) = 'b' then 1 else 0

/-- The tone output is stopped: both control registers of timer 5 are clear. -/
def toneStopped (st : State) : Prop := st.TCCR5A = 0 ∧ st.TCCR5B = 0

instance (st : State) : Decidable (toneStopped st) := by unfold toneStopped; infer_instance

/-- The states the program reaches from its initial state by calls of
`playTune` that return, of `buzz` and of `tune`. -/
inductive Reachable : State → Prop where
  | init : Reachable initState
  | compile (st st1 : State) (p : List Char) :
      Reachable st → playTune st p = .ok st1 → Reachable st1
  | buzzed (st : State) (f d : Int) : Reachable st → Reachable (buzz f d st)
  | tick (st : State) : Reachable st → Reachable (tune st).1

/-- The start-of-note action of `tune`: stop the tone output for a rest, call
`startBuzz` with the frequency for any other note. -/
def noteAction (n : Note) : ToneOp :=
  if n.frequency = REST then ToneOp.stop else ToneOp.start n.frequency

/-- The number of calls of `tune` that a note occupies, `max(d, 1)`. -/
def noteSpan (n : Note) : Nat := max n.length 1

/-- The number of calls of `tune` before note `k` begins: the sum of
`max(d_i, 1)` over the notes `i < k`. -/
def startTick (st : State) : Nat → Nat
  | 0 => 0
  | k + 1 => startTick st k + noteSpan (st.tuneNotes k)

/-- A state that holds the three-note tune `(440, 2), (REST, 0), (493, 1)` at
its start. -/
def threeNoteState : State :=
  { initState with
    tuneNotes := storeNotes initState.tuneNotes 0
      [{ frequency := 440, length := 2 }, { frequency := -1, length := 0 },
       { frequency := 493, length := 1 }]
    tuneLength := 3 }

/-- The state `st` holds the tune of `st0` and stands `m` ticks into note `k`. -/
def AtNote (st0 : State) (k m : Nat) (st : State) : Prop :=
  st.tuneNotes = st0.tuneNotes ∧ st.tuneLength = st0.tuneLength
    ∧ st.tuneIdx = k ∧ st.noteTicks = m

/-! ## Lemmas on the parser -/

theorem cur_cons (c : Char) (cs : List Char) : cur (c :: cs) = c := rfl

theorem cur_nil : cur [] = Char.ofNat 0 := rfl

theorem decimalValue_nil : decimalValue [] = 0 := by
  simp [decimalValue]

theorem decimalValue_cons (c : Char) (cs : List Char) :
    decimalValue (c :: cs) = digitValue c * 10 ^ cs.length + decimalValue cs := by
  simp [decimalValue, Nat.ofDigits_append, Nat.ofDigits_singleton]
  ring

theorem not_isDigit_cur_cons {c : Char} {cs : List Char} (h : ¬ IsDigit (cur (c :: cs))) :
    ¬ ('0'.toNat ≤ c.toNat ∧ c.toNat ≤ '9'.toNat) := h

/-- The loop of `parseInt` on a run of digits, from any accumulator. -/
theorem parseIntLoop_digits (ds rest : List Char) (hd : ∀ c ∈ ds, IsDigit c)
    (hr : ¬ IsDigit (cur rest)) :
    ∀ v : Nat, (v * 10 ^ ds.length + decimalValue ds : Nat) ≤ 32767 →
      parseIntLoop (v : Int) (ds ++ rest)
        = .ok (((v * 10 ^ ds.length + decimalValue ds : Nat) : Int), rest) := by
  induction ds with
  | nil =>
    intro v _
    cases rest with
    | nil => simp [parseIntLoop, decimalValue_nil]
    | cons c cs =>
      have h := not_isDigit_cur_cons hr
      simp only [List.nil_append, parseIntLoop, if_neg h]
      simp [decimalValue_nil]
  | cons c cs ih =>
    intro v hv
    have hc : IsDigit c := hd c (List.mem_cons_self _ _)
    have hc2 : '0'.toNat ≤ c.toNat ∧ c.toNat ≤ '9'.toNat := hc
    have hcs : ∀ x ∈ cs, IsDigit x := fun x hx => hd x (List.mem_cons_of_mem _ hx)
    rw [decimalValue_cons] at hv
    simp only [List.length_cons, pow_succ] at hv
    have hpos : 1 ≤ 10 ^ cs.length := Nat.one_le_pow _ _ (by norm_num)
    have hdv : digitValue c = c.toNat - 48 := rfl
    have h48 : 48 ≤ c.toNat := hc.1
    have hbound : (v * 10 + digitValue c) * 10 ^ cs.length + decimalValue cs ≤ 32767 := by
      calc (v * 10 + digitValue c) * 10 ^ cs.length + decimalValue cs
          = v * (10 ^ cs.length * 10) + (digitValue c * 10 ^ cs.length + decimalValue cs) := by
            ring
        _ ≤ 32767 := hv
    have hle : v * 10 + digitValue c ≤ 32767 := by
      calc v * 10 + digitValue c = (v * 10 + digitValue c) * 1 := by ring
        _ ≤ (v * 10 + digitValue c) * 10 ^ cs.length := Nat.mul_le_mul_left _ hpos
        _ ≤ 32767 := by omega
    have e1 : ((v : Int) * 10 + ((c.toNat : Int) - (('0'.toNat : Nat) : Int)))
        = ((v * 10 + digitValue c : Nat) : Int) := by
      have : '0'.toNat = 48 := rfl
      rw [this, hdv]
      push_cast [Nat.cast_sub h48]
      ring
    have n1 : ¬ (INT_MAX < (v : Int) * 10) := by
      unfold INT_MAX
      have : ((v * 10 : Nat) : Int) ≤ 32767 := by exact_mod_cast (by omega : v * 10 ≤ 32767)
      push_cast at this
      omega
    have n2 : ¬ (INT_MAX < ((v * 10 + digitValue c : Nat) : Int)) := by
      unfold INT_MAX
      have : ((v * 10 + digitValue c : Nat) : Int) ≤ 32767 := by exact_mod_cast hle
      omega
    simp only [List.cons_append, parseIntLoop, if_pos hc2, if_neg n1, e1, if_neg n2]
    show parseIntLoop _ (cs ++ rest) = _
    rw [ih hcs (v * 10 + digitValue c) hbound, decimalValue_cons]
    congr 3
    simp only [List.length_cons, pow_succ]
    ring

/-- On a run of digits whose value fits in an `int`, `parseInt` returns the
value and stops at the first non-digit. -/
theorem parseInt_digits (ds rest : List Char) (hd : ∀ c ∈ ds, IsDigit c)
    (hr : ¬ IsDigit (cur rest)) (hfit : (decimalValue ds : Int) ≤ INT_MAX) :
    parseInt (ds ++ rest) = .ok ((decimalValue ds : Int), rest) := by
  have hfit2 : (0 * 10 ^ ds.length + decimalValue ds : Nat) ≤ 32767 := by
    unfold INT_MAX at hfit
    have : decimalValue ds ≤ 32767 := by exact_mod_cast hfit
    omega
  have h := parseIntLoop_digits ds rest hd hr 0 hfit2
  unfold parseInt
  simpa using h

/-- A digit is neither an accidental marker, nor a comma, nor the terminator. -/
theorem IsDigit.ne_marks {c : Char} (h : IsDigit c) :
    c ≠ '#' ∧ c ≠ 'b' ∧ c ≠ ',' ∧ c ≠ Char.ofNat 0 := by
  refine ⟨?_, ?_, ?_, ?_⟩ <;>
    (intro e
     rw [e] at h
     exact absurd h (by decide))

/-- `parseNote` on a recognised letter: the letter is read, then at most one
sharp, then at most one flat. -/
theorem parseNote_letter (c : Char) (b : Int) (rest : List Char) (hb : noteBase c = some b) :
    parseNote (c :: rest) =
      if cur rest = '#' then
        (if cur rest.tail = 'b' then (b + 1 - 1, rest.tail.tail) else (b + 1, rest.tail))
      else if cur rest = 'b' then (b - 1, rest.tail)
      else (b, rest) := by
  unfold parseNote
  rw [cur_cons, hb]
  simp only [List.tail_cons]
  by_cases h1 : cur rest = '#'
  · by_cases h2 : cur rest.tail = 'b'
    · simp only [if_pos h1, if_pos h2]
    · simp only [if_pos h1, if_neg h2]
  · by_cases h2 : cur rest = 'b'
    · simp only [if_neg h1, if_pos h2]
    · simp only [if_neg h1, if_neg h2]

theorem noteBase_noteLetters : ∀ c ∈ noteLetters, noteBase c = some (letterSemitone c) := by
  decide

theorem letterSemitone_bounds : ∀ c ∈ noteLetters, -1 ≤ letterSemitone c ∧ letterSemitone c ≤ 10 := by
  decide

theorem noteLetters_ne_nul : ∀ c ∈ noteLetters, c ≠ Char.ofNat 0 := by
  decide

set_option maxRecDepth 8192 in
theorem pitches_getElem? : ∀ n < 72, pitches[n]? = some (pitches.getD n 0) := by
  decide

/-- `parseNote` on the letter and accidental of a well-formed token. -/
theorem parseNote_token (t : Token) (hv : t.Valid) (rest : List Char) :
    parseNote (t.letter :: (t.accidental.toList ++ t.digits) ++ rest)
      = (t.semitone, t.digits ++ rest) := by
  obtain ⟨_, hl, ha, hne, hd, _⟩ := hv
  obtain ⟨d, ds, hds⟩ : ∃ d ds, t.digits = d :: ds := by
    cases h : t.digits with
    | nil => exact absurd h hne
    | cons d ds => exact ⟨d, ds, rfl⟩
  have hdig : IsDigit d := hd d (by rw [hds]; exact List.mem_cons_self _ _)
  obtain ⟨n1, n2, _, _⟩ := hdig.ne_marks
  rw [List.cons_append, parseNote_letter _ _ _ (noteBase_noteLetters _ hl)]
  unfold Token.semitone accidentalShift
  rcases ha with ha | ha | ha <;> rw [ha, hds]
  · simp [cur_cons, n1, n2]
  · simp [cur_cons, n2]
  · simp [cur_cons]
    rfl

theorem digitValue_cast (c : Char) (h : 48 ≤ c.toNat) :
    ((c.toNat : Int) - ('0'.toNat : Int)) = (digitValue c : Int) := by
  have e : '0'.toNat = 48 := rfl
  rw [e]
  unfold digitValue
  push_cast [Nat.cast_sub h]
  rfl

/-- The linear index of a well-formed token is at most 71. -/
theorem Token.index_le (t : Token) (hv : t.Valid) : t.index ≤ 71 := by
  obtain ⟨⟨h48, h53⟩, hl, ha, _⟩ := hv
  have hb := (letterSemitone_bounds _ hl).2
  have hdv : digitValue t.octave ≤ 5 := by unfold digitValue; omega
  have hdv2 : (digitValue t.octave : Int) ≤ 5 := by exact_mod_cast hdv
  have hs : accidentalShift t.accidental ≤ 1 := by
    rcases ha with ha | ha | ha <;> rw [ha] <;> decide
  unfold Token.index Token.semitone
  omega

/-- One iteration of the loop of `playTune` on a well-formed token: the note
is stored at index `tl` when that is inside the array, and one comma is skipped. -/
theorem playTuneLoop_token (t : Token) (hv : t.Valid) (rest : List Char)
    (hr : ¬ IsDigit (cur rest)) (fuel tl : Nat) (notes : Nat → Note) :
    playTuneLoop (fuel + 1) (t.text ++ rest) tl notes =
      if MAX_TUNE_LEN ≤ tl then .error (.tuneNotesOutOfBounds tl)
      else playTuneLoop fuel (if cur rest = ',' then rest.tail else rest) (tl + 1)
        (Function.update notes tl t.note) := by
  have hidx := t.index_le hv
  have hpn := parseNote_token t hv rest
  obtain ⟨⟨h48, h53⟩, hl, ha, hne, hd, hfit⟩ := hv
  have ho : t.octave ≠ Char.ofNat 0 := by
    intro e
    rw [e] at h48
    exact absurd h48 (by decide)
  have hln : t.letter ≠ Char.ofNat 0 := noteLetters_ne_nul _ hl
  have hpi := parseInt_digits t.digits rest hd hr hfit
  have htext : t.text ++ rest = t.octave :: (t.letter :: (t.accidental.toList ++ t.digits) ++ rest) := by
    simp [Token.text]
  rw [htext, playTuneLoop]
  simp only [cur_cons, List.tail_cons, if_neg ho, if_neg hln, hpn, hpi,
    digitValue_cast _ h48]
  have h12 : ((NOTES_PER_OCTAVE : Nat) : Int) = 12 := rfl
  rw [h12]
  have hcur : cur (t.letter :: (t.accidental.toList ++ t.digits) ++ rest) = t.letter := rfl
  rw [hcur, if_neg hln]
  have hidx2 : (digitValue t.octave : Int) * 12 + t.semitone = t.index := rfl
  rw [hidx2]
  by_cases h0 : t.index ≤ 0
  · simp only [if_pos h0, Token.note, Int.toNat_ofNat, REST]
  · have hlt : t.index.toNat < 72 := by omega
    simp only [if_neg h0, pitches_getElem? _ hlt, Token.note, Int.toNat_ofNat]

theorem tuneText_nil : tuneText [] = [] := rfl

theorem tuneText_singleton (t : Token) : tuneText [t] = t.text := by
  simp [tuneText, List.intercalate]

theorem tuneText_cons_cons (t u : Token) (ts : List Token) :
    tuneText (t :: u :: ts) = t.text ++ ',' :: tuneText (u :: ts) := by
  simp [tuneText, List.intercalate]

/-- A tune text has at least as many characters as tokens. -/
theorem length_le_tuneText : ∀ toks : List Token, toks.length ≤ (tuneText toks).length
  | [] => Nat.zero_le _
  | [t] => by
    rw [tuneText_singleton]
    simp [Token.text]
  | t :: u :: ts => by
    have ih := length_le_tuneText (u :: ts)
    rw [tuneText_cons_cons]
    simp only [List.length_append, List.length_cons] at ih ⊢
    omega

theorem storeNotes_of_lt : ∀ (ns : List Note) (notes : Nat → Note) (tl j : Nat), j < tl →
    storeNotes notes tl ns j = notes j
  | [], _, _, _, _ => rfl
  | n :: ns, notes, tl, j, h => by
    rw [storeNotes, storeNotes_of_lt ns _ (tl + 1) j (by omega),
      Function.update_noteq (by omega)]

/-- Entry `tl + i` of the array after `storeNotes` is the `i`-th stored note. -/
theorem storeNotes_getElem? : ∀ (ns : List Note) (notes : Nat → Note) (tl i : Nat) (n : Note),
    ns[i]? = some n → storeNotes notes tl ns (tl + i) = n
  | [], _, _, _, _, h => by simp at h
  | m :: ns, notes, tl, 0, n, h => by
    simp only [List.getElem?_cons_zero, Option.some.injEq] at h
    show storeNotes (Function.update notes tl m) (tl + 1) ns tl = n
    rw [storeNotes_of_lt ns _ (tl + 1) tl (by omega), Function.update_same, h]
  | m :: ns, notes, tl, i + 1, n, h => by
    simp only [List.getElem?_cons_succ] at h
    have e : tl + (i + 1) = tl + 1 + i := by omega
    rw [storeNotes, e]
    exact storeNotes_getElem? ns _ (tl + 1) i n h

/-- The loop of `playTune` on the text of well-formed tokens: all notes are
stored when they fit in the array, and the write at index `MAX_TUNE_LEN` is a
fault when they do not. -/
theorem playTuneLoop_tokens : ∀ (toks : List Token), (∀ t ∈ toks, t.Valid) →
    ∀ (fuel tl : Nat) (notes : Nat → Note), toks.length < fuel → tl ≤ MAX_TUNE_LEN →
    playTuneLoop fuel (tuneText toks) tl notes =
      if tl + toks.length ≤ MAX_TUNE_LEN then
        .ok { tl := tl + toks.length
              notes := storeNotes notes tl (toks.map Token.note)
              rest := [] }
      else .error (.tuneNotesOutOfBounds MAX_TUNE_LEN) := by
  intro toks
  induction toks with
  | nil =>
    intro _ fuel tl notes hf htl
    obtain ⟨f, rfl⟩ : ∃ f, fuel = f + 1 := ⟨fuel - 1, by simp at hf; omega⟩
    rw [tuneText_nil, playTuneLoop, if_pos cur_nil, if_pos (by simpa using htl)]
    rfl
  | cons t ts ih =>
    intro hv fuel tl notes hf htl
    have hvt : t.Valid := hv t (List.mem_cons_self _ _)
    have hvs : ∀ u ∈ ts, u.Valid := fun u hu => hv u (List.mem_cons_of_mem _ hu)
    simp only [List.length_cons] at hf
    obtain ⟨f, rfl⟩ : ∃ f, fuel = f + 1 := ⟨fuel - 1, by omega⟩
    have hstep : playTuneLoop (f + 1) (tuneText (t :: ts)) tl notes =
        if MAX_TUNE_LEN ≤ tl then .error (.tuneNotesOutOfBounds tl)
        else playTuneLoop f (tuneText ts) (tl + 1) (Function.update notes tl t.note) := by
      cases ts with
      | nil =>
        have h := playTuneLoop_token t hvt [] (by decide) f tl notes
        rw [List.append_nil] at h
        rw [tuneText_singleton, h, tuneText_nil]
        rfl
      | cons u us =>
        have h := playTuneLoop_token t hvt (',' :: tuneText (u :: us)) (by
          rw [cur_cons]; decide) f tl notes
        rw [tuneText_cons_cons, h]
        rfl
    rw [hstep]
    by_cases hfull : MAX_TUNE_LEN ≤ tl
    · have htl2 : tl = MAX_TUNE_LEN := by omega
      rw [if_pos hfull, if_neg (by simp only [List.length_cons]; omega), htl2]
    · rw [if_neg hfull, ih hvs f (tl + 1) _ (by omega) (by omega)]
      simp only [List.length_cons, List.map_cons, storeNotes]
      have e : tl + 1 + ts.length = tl + (ts.length + 1) := by omega
      rw [e]

/-- `playTune` on the text of well-formed tokens. -/
theorem playTune_tokens (st : State) (toks : List Token) (hv : ∀ t ∈ toks, t.Valid) :
    playTune st (tuneText toks) =
      if toks.length ≤ MAX_TUNE_LEN then
        .ok { st with
              tuneNotes := storeNotes st.tuneNotes 0 (toks.map Token.note)
              tuneLength := toks.length
              tuneIdx := 0 }
      else .error (.tuneNotesOutOfBounds MAX_TUNE_LEN) := by
  unfold playTune
  rw [playTuneLoop_tokens toks hv _ 0 _ (by have := length_le_tuneText toks; omega)
    (Nat.zero_le _)]
  simp only [Nat.zero_add]
  by_cases h : toks.length ≤ MAX_TUNE_LEN
  · simp only [if_pos h]
  · simp only [if_neg h]

/-- `parseNote` never moves the cursor backwards. -/
theorem parseNote_length_le (p : List Char) : (parseNote p).2.length ≤ p.length := by
  unfold parseNote
  split
  · exact Nat.le_refl _
  · simp only
    split <;> split <;> simp only [List.length_tail] <;> omega

/-- The loop of `parseInt` never moves the cursor backwards. -/
theorem parseIntLoop_length_le : ∀ (p : List Char) (v : Int) (r : Int × List Char),
    parseIntLoop v p = .ok r → r.2.length ≤ p.length
  | [], v, r, h => by
    simp only [parseIntLoop, Except.ok.injEq] at h
    rw [← h]
  | c :: cs, v, r, h => by
    rw [parseIntLoop] at h
    split at h
    · simp only at h
      split at h
      · exact absurd h (by simp)
      · split at h
        · exact absurd h (by simp)
        · have := parseIntLoop_length_le cs _ r h
          simp only [List.length_cons]
          omega
    · simp only [Except.ok.injEq] at h
      rw [← h]

/-- The only fault of `parseInt` is the overflow. -/
theorem parseIntLoop_error : ∀ (p : List Char) (v : Int) (e : Fault),
    parseIntLoop v p = .error e → e = .intOverflow
  | [], v, e, h => by
    simp [parseIntLoop] at h
  | c :: cs, v, e, h => by
    rw [parseIntLoop] at h
    split at h
    · simp only at h
      split at h
      · simp only [Except.error.injEq] at h
        exact h.symm
      · split at h
        · simp only [Except.error.injEq] at h
          exact h.symm
        · exact parseIntLoop_error cs _ e h
    · exact absurd h (by simp)

/-- With more fuel than characters the loop of `playTune` never runs out of fuel. -/
theorem playTuneLoop_ne_outOfFuel : ∀ (fuel : Nat) (p : List Char) (tl : Nat) (notes : Nat → Note),
    p.length < fuel → playTuneLoop fuel p tl notes ≠ .error .outOfFuel := by
  intro fuel
  induction fuel with
  | zero => intro p _ _ h; exact absurd h (Nat.not_lt_zero _)
  | succ fuel ih =>
    intro p tl notes hlen
    rw [playTuneLoop]
    split
    · simp
    · rename_i hp
      have hp0 : p ≠ [] := by
        intro e
        rw [e] at hp
        exact hp cur_nil
      have hp1 : p.tail.length + 1 = p.length := by
        cases p with
        | nil => exact absurd rfl hp0
        | cons c cs => rfl
      simp only
      split
      · simp
      · have hn := parseNote_length_le p.tail
        split
        · rename_i e hpi
          have he := parseIntLoop_error _ 0 e hpi
          rw [he]
          simp
        · rename_i len p3 hpi
          have hl := parseIntLoop_length_le _ 0 _ hpi
          simp only at hl
          split
          · rename_i e hf
            intro h
            cases h
            revert hf
            split
            · simp
            · split <;> simp
          · split
            · simp
            · apply ih
              split
              · simp only [List.length_tail]
                omega
              · omega

/-- `playTune` never runs out of fuel: the loop terminates on every text. -/
theorem playTune_ne_outOfFuel (st : State) (p : List Char) :
    playTune st p ≠ .error .outOfFuel := by
  have h := playTuneLoop_ne_outOfFuel (p.length + 1) p 0 st.tuneNotes (Nat.lt_succ_self _)
  unfold playTune
  split
  · rename_i e he
    intro hc
    simp only [Except.error.injEq] at hc
    rw [hc] at he
    exact h he
  · simp

/-- The compiler never touches the tick counter. -/
theorem playTune_noteTicks (st st1 : State) (p : List Char) (h : playTune st p = .ok st1) :
    st1.noteTicks = st.noteTicks ∧ st1.tuneIdx = 0 := by
  unfold playTune at h
  split at h
  · exact absurd h (by simp)
  · simp only [Except.ok.injEq] at h
    subst h
    exact ⟨rfl, rfl⟩

theorem noteLetters_eq : noteLetters
    = ['a', 'b', 'c', 'd', 'e', 'f', 'g', 'r', 'A', 'B', 'C', 'D', 'E', 'F', 'G', 'R'] := rfl

/-- A character that is no note letter takes the `default` branch of the `switch`. -/
theorem noteBase_eq_none (c : Char) (h : c ∉ noteLetters) : noteBase c = none := by
  simp only [noteLetters_eq, List.mem_cons, List.mem_singleton, List.not_mem_nil, or_false,
    not_or] at h
  obtain ⟨h1, h2, h3, h4, h5, h6, h7, h8, h9, h10, h11, h12, h13, h14, h15, h16⟩ := h
  simp [noteBase, h1, h2, h3, h4, h5, h6, h7, h8, h9, h10, h11, h12, h13, h14, h15, h16]

theorem noteBase_toUpper : ∀ c ∈ lowerNoteLetters,
    noteBase c.toUpper = noteBase c ∧ c.toUpper ≠ Char.ofNat 0 ∧ c ≠ Char.ofNat 0 := by
  decide

/-- `parseNote` looks at the case of the letter only in the `switch`. -/
theorem parseNote_congr (c d : Char) (rest : List Char) (h : noteBase c = noteBase d)
    (hc : noteBase d ≠ none) : parseNote (c :: rest) = parseNote (d :: rest) := by
  unfold parseNote
  rw [cur_cons, cur_cons, h]
  cases hd : noteBase d with
  | none => exact absurd hd hc
  | some b => rfl

/-- The loop of `playTune` is its body, repeated while `*p` is not the terminator. -/
theorem playTuneLoop_succ (fuel : Nat) (p : List Char) (tl : Nat) (notes : Nat → Note) :
    playTuneLoop (fuel + 1) p tl notes =
      if cur p = Char.ofNat 0 then .ok { tl := tl, notes := notes, rest := p }
      else
        match playTuneBody p tl notes with
        | .error e => .error e
        | .ok (.exit c) => .ok c
        | .ok (.next c) => playTuneLoop fuel c.rest c.tl c.notes := by
  rw [playTuneLoop]
  by_cases h0 : cur p = Char.ofNat 0
  · rw [if_pos h0, if_pos h0]
  · rw [if_neg h0, if_neg h0]
    unfold playTuneBody
    simp only
    by_cases h1 : cur p.tail = Char.ofNat 0
    · simp only [if_pos h1]
    · simp only [if_neg h1]
      cases hpi : parseInt (parseNote p.tail).2 with
      | error e => rfl
      | ok r =>
        obtain ⟨len, p3⟩ := r
        simp only
        split
        · rfl
        · split <;> rfl

/-- `parseNote` leaves the cursor inside the text. -/
theorem parseNote_suffix (p : List Char) : (parseNote p).2 <:+ p := by
  unfold parseNote
  split
  · exact List.suffix_refl _
  · simp only
    have h1 : p.tail <:+ p := List.tail_suffix p
    have h2 : p.tail.tail <:+ p := (List.tail_suffix _).trans h1
    have h3 : p.tail.tail.tail <:+ p := (List.tail_suffix _).trans h2
    split <;> split <;> assumption

/-- The loop of `parseInt` leaves the cursor inside the text. -/
theorem parseIntLoop_suffix : ∀ (p : List Char) (v : Int) (r : Int × List Char),
    parseIntLoop v p = .ok r → r.2 <:+ p
  | [], v, r, h => by
    simp only [parseIntLoop, Except.ok.injEq] at h
    rw [← h]
  | c :: cs, v, r, h => by
    rw [parseIntLoop] at h
    split at h
    · simp only at h
      split at h
      · exact absurd h (by simp)
      · split at h
        · exact absurd h (by simp)
        · exact (parseIntLoop_suffix cs _ r h).trans (List.suffix_cons c cs)
    · simp only [Except.ok.injEq] at h
      rw [← h]

/-- A pass through the body that reaches its end stores one note and advances
the cursor by at least one character, without leaving the text. -/
theorem playTuneBody_next (p : List Char) (tl : Nat) (notes : Nat → Note) (c : Compiled)
    (h : playTuneBody p tl notes = .ok (.next c)) :
    c.tl = tl + 1 ∧ c.rest <:+ p.tail ∧ c.rest.length + 1 ≤ p.length ∧ 2 ≤ p.length := by
  unfold playTuneBody at h
  simp only at h
  split at h
  · exact absurd h (by simp)
  · rename_i h1
    have hp : 2 ≤ p.length := by
      match p, h1 with
      | [], h1 => exact absurd cur_nil h1
      | [_], h1 => exact absurd cur_nil h1
      | _ :: _ :: _, _ => simp
    split at h
    · exact absurd h (by simp)
    · rename_i len p3 hpi
      have hs3 : p3 <:+ (parseNote p.tail).2 := parseIntLoop_suffix _ 0 _ hpi
      have hs : p3 <:+ p.tail := hs3.trans (parseNote_suffix _)
      split at h
      · exact absurd h (by simp)
      · split at h
        · exact absurd h (by simp)
        · simp only [Except.ok.injEq, BodyResult.next.injEq] at h
          subst h
          simp only
          have hs4 : (if cur p3 = ',' then p3.tail else p3) <:+ p.tail := by
            split
            · exact (List.tail_suffix _).trans hs
            · exact hs
          have hl := hs4.length_le
          rw [List.length_tail] at hl
          exact ⟨trivial, hs4, by omega, hp⟩

/-- A pass through the body that leaves by `break` stores nothing and stops on
the terminator. -/
theorem playTuneBody_exit (p : List Char) (tl : Nat) (notes : Nat → Note) (c : Compiled)
    (h : playTuneBody p tl notes = .ok (.exit c)) :
    c.tl = tl ∧ c.rest = p.tail ∧ cur c.rest = Char.ofNat 0 := by
  unfold playTuneBody at h
  simp only at h
  split at h
  · rename_i h1
    simp only [Except.ok.injEq, BodyResult.exit.injEq] at h
    subst h
    exact ⟨rfl, rfl, h1⟩
  · split at h
    · exact absurd h (by simp)
    · split at h
      · exact absurd h (by simp)
      · split at h <;> exact absurd h (by simp)

/-- When the loop of `playTune` returns, the cursor is inside the text, on a
terminator, and every note stored has cost at least one character; the last
character of the text never gives a note. -/
theorem playTuneLoop_ok : ∀ (fuel : Nat) (p : List Char) (tl : Nat) (notes : Nat → Note)
    (c : Compiled), playTuneLoop fuel p tl notes = .ok c →
    c.rest <:+ p ∧ cur c.rest = Char.ofNat 0 ∧ tl ≤ c.tl
      ∧ (c.tl = tl ∨ c.tl - tl + 1 ≤ p.length) := by
  intro fuel
  induction fuel with
  | zero =>
    intro p tl notes c h
    exact absurd h (by simp [playTuneLoop])
  | succ fuel ih =>
    intro p tl notes c h
    rw [playTuneLoop_succ] at h
    split at h
    · rename_i h0
      simp only [Except.ok.injEq] at h
      subst h
      exact ⟨List.suffix_refl _, h0, Nat.le_refl _, Or.inl rfl⟩
    · split at h
      · exact absurd h (by simp)
      · rename_i c1 hb
        simp only [Except.ok.injEq] at h
        subst h
        obtain ⟨e1, e2, e3⟩ := playTuneBody_exit p tl notes _ hb
        exact ⟨e2 ▸ List.tail_suffix p, e3, by omega, Or.inl e1⟩
      · rename_i c1 hb
        obtain ⟨e1, e2, e3, e4⟩ := playTuneBody_next p tl notes _ hb
        obtain ⟨i1, i2, i3, i4⟩ := ih _ _ _ _ h
        refine ⟨(i1.trans e2).trans (List.tail_suffix p), i2, by omega, Or.inr ?_⟩
        rcases i4 with i4 | i4 <;> omega

/-- The result of the loop of `playTune` does not depend on the fuel, once there
is more fuel than characters. -/
theorem playTuneLoop_fuel : ∀ (f1 f2 : Nat) (p : List Char) (tl : Nat) (notes : Nat → Note),
    p.length < f1 → p.length < f2 → playTuneLoop f1 p tl notes = playTuneLoop f2 p tl notes := by
  intro f1
  induction f1 with
  | zero => intro f2 p tl notes h; exact absurd h (Nat.not_lt_zero _)
  | succ f1 ih =>
    intro f2 p tl notes h1 h2
    obtain ⟨g, rfl⟩ : ∃ g, f2 = g + 1 := ⟨f2 - 1, by omega⟩
    rw [playTuneLoop_succ, playTuneLoop_succ]
    by_cases h0 : cur p = Char.ofNat 0
    · rw [if_pos h0, if_pos h0]
    · rw [if_neg h0, if_neg h0]
      cases hb : playTuneBody p tl notes with
      | error e => rfl
      | ok r =>
        cases r with
        | exit c => rfl
        | next c =>
          obtain ⟨_, _, hl, _⟩ := playTuneBody_next p tl notes c hb
          exact ih g c.rest c.tl c.notes (by omega) (by omega)

/-! ## Lemmas on the scheduler -/

theorem startBuzz_tuneNotes (f : Int) (st : State) : (startBuzz f st).tuneNotes = st.tuneNotes := by
  unfold startBuzz; split <;> rfl

theorem startBuzz_tuneLength (f : Int) (st : State) :
    (startBuzz f st).tuneLength = st.tuneLength := by
  unfold startBuzz; split <;> rfl

theorem startBuzz_tuneIdx (f : Int) (st : State) : (startBuzz f st).tuneIdx = st.tuneIdx := by
  unfold startBuzz; split <;> rfl

theorem startBuzz_noteTicks (f : Int) (st : State) : (startBuzz f st).noteTicks = st.noteTicks := by
  unfold startBuzz; split <;> rfl

/-- The `startBuzz` of the code is the `start` of the tone output. -/
theorem startBuzz_eq_start (f : Int) (st : State) : startBuzz f st = ToneOutput.start f st := by
  unfold startBuzz ToneOutput.start
  by_cases h : f ≤ 0
  · rw [if_pos h, if_pos h]
    rfl
  · rw [if_neg h, if_neg h]
    rfl

/-- A call of `tune` on a finished tune. -/
theorem tune_finished (st : State) (h : st.tuneLength ≤ st.tuneIdx) :
    tune st = ({ st with TCCR5A := 0, TCCR5B := 0 }, some ToneOp.stop) := by
  unfold tune
  rw [if_pos h]

/-- On a finished tune every call of `tune` issues a stop. -/
theorem ticks_finished (j : Nat) : ∀ st : State, st.tuneLength ≤ st.tuneIdx →
    ticks j st = List.replicate j (some ToneOp.stop) := by
  induction j with
  | zero => intro st _; rfl
  | succ j ih =>
    intro st h
    simp only [ticks, tune_finished st h, List.replicate_succ]
    rw [ih]
    exact h

/-- A call of `tune` inside a note, away from its start. -/
theorem tune_inside (st : State) (h : st.tuneIdx < st.tuneLength) (hk : st.noteTicks ≠ 0) :
    tune st =
      (if (st.tuneNotes st.tuneIdx).length ≤ st.noteTicks + 1 then
        { st with noteTicks := 0, tuneIdx := st.tuneIdx + 1 }
      else { st with noteTicks := st.noteTicks + 1 }, none) := by
  unfold tune
  rw [if_neg (by omega), if_neg hk]
  simp only
  split <;> rfl

/-- A call of `tune` at the start of a note that is not a rest. -/
theorem tune_note_start (st : State) (h : st.tuneIdx < st.tuneLength) (hk : st.noteTicks = 0)
    (hf : (st.tuneNotes st.tuneIdx).frequency ≠ -1) :
    tune st =
      (if (st.tuneNotes st.tuneIdx).length ≤ 1 then
        { startBuzz (st.tuneNotes st.tuneIdx).frequency st with
          noteTicks := 0, tuneIdx := st.tuneIdx + 1 }
      else { startBuzz (st.tuneNotes st.tuneIdx).frequency st with noteTicks := 1 },
       some (ToneOp.start (st.tuneNotes st.tuneIdx).frequency)) := by
  unfold tune
  rw [if_neg (by omega), if_pos hk, if_neg hf]
  simp only [startBuzz_tuneNotes, startBuzz_tuneIdx, startBuzz_noteTicks, hk, Nat.zero_add]
  split <;> rfl

/-- The ticks that remain of a one-note tune whose note has begun: silence from
the scheduler until the note is over, then a stop on every tick. -/
theorem ticks_inside_one_note (f : Int) (d j : Nat) : ∀ (m : Nat) (st : State),
    st.tuneLength = 1 → st.tuneIdx = 0 → st.tuneNotes 0 = { frequency := f, length := d } →
    0 < st.noteTicks → st.noteTicks + (m + 1) = d →
    ticks (m + 1 + j) st
      = List.replicate (m + 1) none ++ List.replicate j (some ToneOp.stop) := by
  intro m
  induction m with
  | zero =>
    intro st hl hi hn hk hd
    have hlt : st.tuneIdx < st.tuneLength := by omega
    have hle : (st.tuneNotes st.tuneIdx).length ≤ st.noteTicks + 1 := by
      rw [hi, hn]; simp only; omega
    have ht := tune_inside st hlt (by omega)
    rw [if_pos hle] at ht
    simp only [Nat.zero_add, Nat.add_comm 1 j, ticks, ht, List.replicate_one, List.singleton_append]
    rw [ticks_finished]
    show st.tuneLength ≤ st.tuneIdx + 1
    omega
  | succ m ih =>
    intro st hl hi hn hk hd
    have hlt : st.tuneIdx < st.tuneLength := by omega
    have hle : ¬ (st.tuneNotes st.tuneIdx).length ≤ st.noteTicks + 1 := by
      rw [hi, hn]; simp only; omega
    have ht := tune_inside st hlt (by omega)
    rw [if_neg hle] at ht
    have e : m + 1 + 1 + j = (m + 1 + j) + 1 := by omega
    rw [e]
    simp only [ticks, ht]
    rw [ih]
    · simp [List.replicate_succ]
    · exact hl
    · exact hi
    · exact hn
    · exact Nat.succ_pos _
    · show st.noteTicks + 1 + (m + 1) = d
      omega

/-- A call of `tune` while a note is current: the array and the tune length stay,
the counters advance, and a tone operation is issued at the start of the note only. -/
theorem tune_playing (st : State) (h : st.tuneIdx < st.tuneLength) :
    (tune st).1.tuneNotes = st.tuneNotes ∧ (tune st).1.tuneLength = st.tuneLength
      ∧ (tune st).1.tuneIdx
          = (if (st.tuneNotes st.tuneIdx).length ≤ st.noteTicks + 1 then st.tuneIdx + 1
              else st.tuneIdx)
      ∧ (tune st).1.noteTicks
          = (if (st.tuneNotes st.tuneIdx).length ≤ st.noteTicks + 1 then 0
              else st.noteTicks + 1)
      ∧ (tune st).2
          = (if st.noteTicks = 0 then some (noteAction (st.tuneNotes st.tuneIdx)) else none) := by
  by_cases hk : st.noteTicks = 0
  · by_cases hf : (st.tuneNotes st.tuneIdx).frequency = -1
    · have ht : tune st =
          (if (st.tuneNotes st.tuneIdx).length ≤ 1 then
            { st with TCCR5A := 0, TCCR5B := 0, noteTicks := 0, tuneIdx := st.tuneIdx + 1 }
          else { st with TCCR5A := 0, TCCR5B := 0, noteTicks := 1 }, some ToneOp.stop) := by
        unfold tune
        rw [if_neg (by omega), if_pos hk, if_pos hf]
        simp only [hk, Nat.zero_add]
        split <;> rfl
      rw [ht, hk]
      simp only [Nat.zero_add, noteAction, REST, if_pos hf, if_true]
      split <;> simp
    · rw [tune_note_start st h hk hf, hk]
      simp only [Nat.zero_add, noteAction, REST, if_neg hf, if_true]
      split <;> simp [startBuzz_tuneNotes, startBuzz_tuneLength, startBuzz_tuneIdx]
  · rw [tune_inside st h hk]
    simp only [if_neg hk]
    split <;> simp

/-- The state after one more call of `tune`. -/
theorem tuneN_succ (n : Nat) : ∀ st : State, tuneN (n + 1) st = (tune (tuneN n st)).1 := by
  induction n with
  | zero => intro st; rfl
  | succ n ih =>
    intro st
    show tuneN (n + 1) (tune st).1 = (tune (tuneN n (tune st).1)).1
    exact ih _

/-- On a finished tune whose tone output is stopped, `tune` changes nothing. -/
theorem tune_stopped (st : State) (h : st.tuneLength ≤ st.tuneIdx) (hs : toneStopped st) :
    (tune st).1 = st := by
  rw [tune_finished st h]
  obtain ⟨ha, hb⟩ := hs
  cases st
  simp only at ha hb
  subst ha hb
  rfl

theorem tuneN_stopped (n : Nat) (st : State) (h : st.tuneLength ≤ st.tuneIdx)
    (hs : toneStopped st) : tuneN n st = st := by
  induction n with
  | zero => rfl
  | succ n ih => rw [tuneN_succ, ih, tune_stopped st h hs]

/-- `playTune` on a text of at most one character stores nothing. -/
theorem playTune_short (st : State) (p : List Char) (h : p.length ≤ 1) :
    playTune st p = .ok { st with tuneLength := 0, tuneIdx := 0 } := by
  unfold playTune
  match p, h with
  | [], _ => rfl
  | [c], _ =>
    simp only [List.length_cons, List.length_nil, Nat.zero_add]
    rw [playTuneLoop]
    by_cases hc : c = Char.ofNat 0
    · simp only [cur_cons, if_pos hc]
    · simp only [cur_cons, if_neg hc, List.tail_cons, cur_nil, if_true]
  | _ :: _ :: _, h => simp at h

/-- `playTune` leaves the registers of the timer alone. -/
theorem playTune_registers (st st1 : State) (p : List Char) (h : playTune st p = .ok st1) :
    st1.TCCR5A = st.TCCR5A ∧ st1.TCCR5B = st.TCCR5B ∧ st1.OCR5A = st.OCR5A
      ∧ st1.DDRL = st.DDRL := by
  unfold playTune at h
  split at h
  · exact absurd h (by simp)
  · simp only [Except.ok.injEq] at h
    subst h
    exact ⟨rfl, rfl, rfl, rfl⟩

/-- The tune length after a `playTune` that returns is the count of the loop. -/
theorem playTune_tuneLength (st st1 : State) (p : List Char) (h : playTune st p = .ok st1) :
    ∃ c, playTuneLoop (p.length + 1) p 0 st.tuneNotes = .ok c ∧ st1.tuneLength = c.tl := by
  unfold playTune at h
  split at h
  · exact absurd h (by simp)
  · rename_i c hc
    simp only [Except.ok.injEq] at h
    subst h
    exact ⟨c, hc, rfl⟩

/-- A text of two characters or more gives at least one note when `playTune`
returns. -/
theorem playTune_two_chars (st st1 : State) (p : List Char) (h0 : cur p ≠ Char.ofNat 0)
    (h1 : cur p.tail ≠ Char.ofNat 0) (h : playTune st p = .ok st1) : 1 ≤ st1.tuneLength := by
  obtain ⟨c, hc, e⟩ := playTune_tuneLength st st1 p h
  rw [playTuneLoop_succ, if_neg h0] at hc
  rw [e]
  cases hb : playTuneBody p 0 st.tuneNotes with
  | error e2 =>
    rw [hb] at hc
    exact absurd hc (by simp)
  | ok r =>
    rw [hb] at hc
    cases r with
    | exit c1 =>
      obtain ⟨_, e2, e3⟩ := playTuneBody_exit p 0 st.tuneNotes c1 hb
      rw [e2] at e3
      exact absurd e3 h1
    | next c1 =>
      obtain ⟨e1, _, _, _⟩ := playTuneBody_next p 0 st.tuneNotes c1 hb
      obtain ⟨_, _, i3, _⟩ := playTuneLoop_ok _ _ _ _ _ hc
      omega

theorem noteSpan_pos (n : Note) : 0 < noteSpan n := by
  unfold noteSpan; omega

/-- A call of `tune` that stays inside the current note. -/
theorem AtNote.step_inside {st0 st : State} {k m : Nat} (h : AtNote st0 k m st)
    (hk : k < st0.tuneLength) (hm : m + 1 < noteSpan (st0.tuneNotes k)) :
    AtNote st0 k (m + 1) (tune st).1 := by
  obtain ⟨hn, hl, hi, ht⟩ := h
  obtain ⟨h1, h2, h3, h4, _⟩ := tune_playing st (by omega)
  have hd : ¬ (st.tuneNotes st.tuneIdx).length ≤ st.noteTicks + 1 := by
    rw [hn, hi, ht]
    unfold noteSpan at hm
    omega
  rw [if_neg hd] at h3 h4
  exact ⟨h1.trans hn, h2.trans hl, h3.trans hi, by rw [h4, ht]⟩

/-- The call of `tune` that ends the current note. -/
theorem AtNote.step_last {st0 st : State} {k m : Nat} (h : AtNote st0 k m st)
    (hk : k < st0.tuneLength) (hm : m + 1 = noteSpan (st0.tuneNotes k)) :
    AtNote st0 (k + 1) 0 (tune st).1 := by
  obtain ⟨hn, hl, hi, ht⟩ := h
  obtain ⟨h1, h2, h3, h4, _⟩ := tune_playing st (by omega)
  have hd : (st.tuneNotes st.tuneIdx).length ≤ st.noteTicks + 1 := by
    rw [hn, hi, ht]
    unfold noteSpan at hm
    omega
  rw [if_pos hd] at h3 h4
  exact ⟨h1.trans hn, h2.trans hl, by rw [h3, hi], h4⟩

/-- The tone operation of a call of `tune` while a note is current. -/
theorem AtNote.op {st0 st : State} {k m : Nat} (h : AtNote st0 k m st)
    (hk : k < st0.tuneLength) :
    (tune st).2 = if m = 0 then some (noteAction (st0.tuneNotes k)) else none := by
  obtain ⟨hn, hl, hi, ht⟩ := h
  obtain ⟨_, _, _, _, h5⟩ := tune_playing st (by omega)
  rw [h5, hn, hi, ht]

/-- From the start of note `k`, `m` calls of `tune` lead `m` ticks into the
note, as long as `m` is less than the span of the note. -/
theorem atNote_within (st0 : State) (k s : Nat) (hk : k < st0.tuneLength)
    (h0 : AtNote st0 k 0 (tuneN s st0)) :
    ∀ m, m < noteSpan (st0.tuneNotes k) → AtNote st0 k m (tuneN (s + m) st0) := by
  intro m
  induction m with
  | zero => intro _; exact h0
  | succ m ih =>
    intro hm
    have h := ih (by omega)
    rw [← Nat.add_assoc, tuneN_succ]
    exact h.step_inside hk hm

/-- After `startTick st0 k` calls of `tune` the scheduler stands at the start
of note `k`. -/
theorem atNote_start (st0 : State) (hi : st0.tuneIdx = 0) (ht : st0.noteTicks = 0) :
    ∀ k, k ≤ st0.tuneLength → AtNote st0 k 0 (tuneN (startTick st0 k) st0) := by
  intro k
  induction k with
  | zero => intro _; exact ⟨rfl, rfl, hi, ht⟩
  | succ k ih =>
    intro hk
    have hk2 : k < st0.tuneLength := by omega
    have hpos := noteSpan_pos (st0.tuneNotes k)
    obtain ⟨m, hm⟩ : ∃ m, noteSpan (st0.tuneNotes k) = m + 1 :=
      ⟨noteSpan (st0.tuneNotes k) - 1, by omega⟩
    have h := atNote_within st0 k (startTick st0 k) hk2 (ih (by omega)) m (by omega)
    have e : startTick st0 (k + 1) = startTick st0 k + m + 1 := by
      rw [startTick, hm, Nat.add_assoc]
    rw [e, tuneN_succ]
    exact h.step_last hk2 hm.symm

/-- Every call before the tune is finished falls into the span of one note. -/
theorem exists_note_of_lt_startTick (st : State) : ∀ n j, j < startTick st n →
    ∃ k, k < n ∧ ∃ m, m < noteSpan (st.tuneNotes k) ∧ j = startTick st k + m := by
  intro n
  induction n with
  | zero => intro j hj; exact absurd hj (Nat.not_lt_zero _)
  | succ n ih =>
    intro j hj
    by_cases h : j < startTick st n
    · obtain ⟨k, hk, m, hm, e⟩ := ih j h
      exact ⟨k, by omega, m, hm, e⟩
    · rw [startTick] at hj
      exact ⟨n, Nat.lt_succ_self n, j - startTick st n, by omega, by omega⟩

theorem startTick_eq_sum (st : State) (k : Nat) :
    startTick st k = ∑ i in Finset.range k, max (st.tuneNotes i).length 1 := by
  induction k with
  | zero => rfl
  | succ k ih => rw [startTick, Finset.sum_range_succ, ih]; rfl

/-! ## Theorems -/

/-- C1: for every sequence of `n <= 400` well-formed tokens joined by single
commas (`n >= 1` in the claim; the empty text is covered as well), `playTune`
returns, sets `tuneLength` to `n` and stores the notes in input order: note `i`
has the decimal value of the digits of token `i` as its duration, and its
frequency is `pitches[octave * 12 + semitone]` when that index is at least 1
and REST when it is at most 0. -/
theorem playTune_valid_tokens (st : State) (toks : List Token) (hv : ∀ t ∈ toks, t.Valid)
    (hcap : toks.length ≤ MAX_TUNE_LEN) :
    ∃ st1, playTune st (tuneText toks) = .ok st1 ∧ st1.tuneLength = toks.length
      ∧ ∀ (i : Nat) (t : Token), toks[i]? = some t →
          (st1.tuneNotes i).length = decimalValue t.digits
          ∧ (1 ≤ t.index → pitches[t.index.toNat]? = some (st1.tuneNotes i).frequency)
          ∧ (t.index ≤ 0 → (st1.tuneNotes i).frequency = REST) := by
  refine ⟨{ st with
              tuneNotes := storeNotes st.tuneNotes 0 (toks.map Token.note)
              tuneLength := toks.length
              tuneIdx := 0 }, ?_, rfl, ?_⟩
  · rw [playTune_tokens st toks hv, if_pos hcap]
  · intro i t hi
    have hmap : (toks.map Token.note)[i]? = some t.note := by
      rw [List.getElem?_map, hi]
      rfl
    have hst := storeNotes_getElem? _ st.tuneNotes 0 i _ hmap
    rw [Nat.zero_add] at hst
    have hvt : t.Valid := hv t (List.getElem?_mem hi)
    have hix := t.index_le hvt
    simp only [hst]
    refine ⟨rfl, ?_, ?_⟩
    · intro h1
      have hlt : t.index.toNat < 72 := by omega
      rw [pitches_getElem? _ hlt]
      simp only [Token.note, if_neg (show ¬ t.index ≤ 0 by omega)]
    · intro h0
      simp only [Token.note, if_pos h0]

/-- C1, witness: `"3a4,3b8,0r2"` gives `(pitches[36], 4)`, `(pitches[38], 8)` and
`(REST, 2)`. -/
theorem playTune_valid_tokens_witness :
    (tuneText exampleTokens = "3a4,3b8,0r2".toList
      ∧ (playTune initState "3a4,3b8,0r2".toList).map
          (fun s => (s.tuneLength, s.tuneNotes 0, s.tuneNotes 1, s.tuneNotes 2))
        = .ok (3, { frequency := 440, length := 4 }, { frequency := 493, length := 8 },
            { frequency := -1, length := 2 })
      ∧ pitches[36]? = some 440 ∧ pitches[38]? = some 493)
    ∧ ∃ st1, playTune initState (tuneText exampleTokens) = .ok st1
      ∧ st1.tuneLength = exampleTokens.length
      ∧ ∀ (i : Nat) (t : Token), exampleTokens[i]? = some t →
          (st1.tuneNotes i).length = decimalValue t.digits
          ∧ (1 ≤ t.index → pitches[t.index.toNat]? = some (st1.tuneNotes i).frequency)
          ∧ (t.index ≤ 0 → (st1.tuneNotes i).frequency = REST) :=
  ⟨by decide,
   playTune_valid_tokens initState exampleTokens (by decide) (by decide)⟩

/-- C2: for every scheduler state, one call of `tune` is the transition function
of the specification: a finished tune stops the tone output and changes nothing
else; otherwise at `noteTicks = 0` the tone output is stopped for a rest and
started at the note frequency for any other note, `noteTicks` is incremented,
and when it has reached the duration it is reset and `tuneIdx` advances.
Starting the tone output at a frequency `f > 0` sets timer 5 to toggle OC5A in
CTC mode on clock / 8 with the period `2000000 / f`; by the contract of the
tone output a start at `f <= 0` is a stop. -/
theorem tune_eq_tuneSpec (st : State) :
    tune st = tuneSpec st
      ∧ (st.tuneLength ≤ st.tuneIdx → toneStopped (tune st).1)
      ∧ (st.tuneIdx < st.tuneLength → st.noteTicks = 0 →
          0 < (st.tuneNotes st.tuneIdx).frequency →
          (tune st).2 = some (ToneOp.start (st.tuneNotes st.tuneIdx).frequency)
            ∧ (tune st).1.TCCR5A = 64 ∧ (tune st).1.TCCR5B = 10
            ∧ (tune st).1.OCR5A = (2000000 / (st.tuneNotes st.tuneIdx).frequency % 65536).toNat
            ∧ (tune st).1.DDRL = st.DDRL ||| 8)
      ∧ (st.tuneIdx < st.tuneLength → st.noteTicks = 0 →
          (st.tuneNotes st.tuneIdx).frequency ≤ 0 →
          toneStopped (tune st).1 ∧ (tune st).1.OCR5A = st.OCR5A
            ∧ (tune st).1.DDRL = st.DDRL)
      ∧ (st.tuneIdx < st.tuneLength → st.noteTicks ≠ 0 →
          (tune st).2 = none ∧ (tune st).1.TCCR5A = st.TCCR5A
            ∧ (tune st).1.TCCR5B = st.TCCR5B ∧ (tune st).1.OCR5A = st.OCR5A
            ∧ (tune st).1.DDRL = st.DDRL) := by
  have heq : tune st = tuneSpec st := by
    unfold tune tuneSpec
    by_cases h : st.tuneLength ≤ st.tuneIdx
    · rw [if_pos h, if_pos (show st.tuneIdx ≥ st.tuneLength from h)]
      rfl
    · rw [if_neg h, if_neg (show ¬ st.tuneIdx ≥ st.tuneLength from h)]
      by_cases hk : st.noteTicks = 0
      · by_cases hf : (st.tuneNotes st.tuneIdx).frequency = -1
        · have hf2 : (st.tuneNotes st.tuneIdx).frequency = REST := hf
          simp only [if_pos hk, if_pos hf, if_pos hf2, ToneOp.apply, ToneOutput.stop, ge_iff_le]
        · have hf2 : ¬ (st.tuneNotes st.tuneIdx).frequency = REST := hf
          simp only [if_pos hk, if_neg hf, if_neg hf2, ToneOp.apply, ge_iff_le,
            ← startBuzz_eq_start, startBuzz_tuneNotes, startBuzz_tuneIdx, startBuzz_noteTicks]
      · simp only [if_neg hk, ge_iff_le]
  refine ⟨heq, ?_, ?_, ?_, ?_⟩
  · intro h
    rw [tune_finished st h]
    exact ⟨rfl, rfl⟩
  · intro h hk hf
    have hne : (st.tuneNotes st.tuneIdx).frequency ≠ -1 := by omega
    rw [tune_note_start st h hk hne]
    have hb : startBuzz (st.tuneNotes st.tuneIdx).frequency st =
        { st with
          DDRL := st.DDRL ||| 8, TCCR5A := 64, TCCR5B := 10
          OCR5A := (2000000 / (st.tuneNotes st.tuneIdx).frequency % 65536).toNat } := by
      unfold startBuzz
      rw [if_neg (by omega)]
      rfl
    rw [hb]
    refine ⟨rfl, ?_⟩
    split <;> exact ⟨rfl, rfl, rfl, rfl⟩
  · intro h hk hf
    have hb : startBuzz (st.tuneNotes st.tuneIdx).frequency st
        = { st with TCCR5A := 0, TCCR5B := 0 } := by
      unfold startBuzz
      rw [if_pos hf]
    by_cases hr : (st.tuneNotes st.tuneIdx).frequency = -1
    · have ht : (tune st).1.TCCR5A = 0 ∧ (tune st).1.TCCR5B = 0
          ∧ (tune st).1.OCR5A = st.OCR5A ∧ (tune st).1.DDRL = st.DDRL := by
        unfold tune
        rw [if_neg (by omega), if_pos hk, if_pos hr]
        simp only
        split <;> exact ⟨rfl, rfl, rfl, rfl⟩
      exact ⟨⟨ht.1, ht.2.1⟩, ht.2.2.1, ht.2.2.2⟩
    · rw [tune_note_start st h hk hr, hb]
      split <;> exact ⟨⟨rfl, rfl⟩, rfl, rfl⟩
  · intro h hk
    rw [tune_inside st h hk]
    refine ⟨rfl, ?_⟩
    split <;> exact ⟨rfl, rfl, rfl, rfl⟩

/-- C3, as stated, fails: the tune compiled from `"3a2"` (one note of 440 Hz and
duration `d = 2`) gets no stop on tick 2, none at all in `N = 2` ticks, and two
stops in `N = 4` ticks, on ticks 3 and 4. -/
theorem ticks_one_note_counterexample :
    (playTune initState "3a2".toList).map
        (fun st => (st.tuneLength, st.tuneIdx, st.noteTicks, st.tuneNotes 0))
      = .ok (1, 0, 0, { frequency := 440, length := 2 })
    ∧ (playTune initState "3a2".toList).map (fun st => ticks 4 st)
      = .ok [some (ToneOp.start 440), none, some ToneOp.stop, some ToneOp.stop]
    ∧ (playTune initState "3a2".toList).map
        (fun st => ((ticks 4 st)[2 - 1]?, (ticks 2 st).count (some ToneOp.stop),
          (ticks 4 st).count (some ToneOp.stop)))
      = .ok (some none, 0, 2) := by
  decide

/-- C3, amended: on a one-note tune at its start (`tuneIdx = 0`, `noteTicks = 0`)
whose note has a frequency `f` other than REST and a duration `d >= 1`, `N >= d`
calls of `tune` issue `startBuzz(f)` once, on the first call, issue nothing on
calls 2 to `d`, and issue a stop on every call from `d + 1` to `N`. -/
theorem ticks_one_note (st : State) (f : Int) (d N : Nat)
    (hl : st.tuneLength = 1) (hi : st.tuneIdx = 0) (hk : st.noteTicks = 0)
    (hn : st.tuneNotes 0 = { frequency := f, length := d })
    (hf : f ≠ REST) (hd : 1 ≤ d) (hN : d ≤ N) :
    ticks N st = some (ToneOp.start f)
      :: (List.replicate (d - 1) none ++ List.replicate (N - d) (some ToneOp.stop)) := by
  have hlt : st.tuneIdx < st.tuneLength := by omega
  have hf2 : (st.tuneNotes st.tuneIdx).frequency ≠ -1 := by rw [hi, hn]; exact hf
  have ht := tune_note_start st hlt hk hf2
  obtain ⟨M, rfl⟩ : ∃ M, N = M + 1 := ⟨N - 1, by omega⟩
  simp only [ticks]
  rw [ht]
  simp only [hi, hn]
  congr 1
  by_cases h1 : d ≤ 1
  · have hd1 : d = 1 := by omega
    subst hd1
    rw [if_pos (le_refl 1)]
    rw [ticks_finished]
    · simp
    · show (startBuzz f st).tuneLength ≤ 0 + 1
      rw [startBuzz_tuneLength, hl]
  · rw [if_neg h1]
    obtain ⟨m, rfl⟩ : ∃ m, d = m + 2 := ⟨d - 2, by omega⟩
    obtain ⟨j, rfl⟩ : ∃ j, M = m + 1 + j := ⟨M - (m + 1), by omega⟩
    have e1 : m + 2 - 1 = m + 1 := by omega
    have e2 : m + 1 + j + 1 - (m + 2) = j := by omega
    rw [e1, e2]
    apply ticks_inside_one_note f (m + 2) j m
    · show (startBuzz f st).tuneLength = 1
      rw [startBuzz_tuneLength, hl]
    · show (startBuzz f st).tuneIdx = 0
      rw [startBuzz_tuneIdx, hi]
    · show (startBuzz f st).tuneNotes 0 = _
      rw [startBuzz_tuneNotes, hn]
    · exact Nat.one_pos
    · show 1 + (m + 1) = m + 2
      omega

/-- C3, witness: a note of 440 Hz and duration 2, ticked 4 times. -/
theorem ticks_one_note_witness :
    ticks 4 (oneNoteState 440 2)
      = [some (ToneOp.start 440), none, some ToneOp.stop, some ToneOp.stop] :=
  ticks_one_note (oneNoteState 440 2) 440 2 4 rfl rfl rfl (by simp [oneNoteState])
    (by decide) (by decide) (by decide)


/-- C9: on a run of `k >= 0` digit characters followed by a non-digit (or by the
terminator), whose base-10 value fits in an `int`, `parseInt` returns that
value and leaves the cursor `k` characters further on, at the first non-digit. -/
theorem parseInt_digit_run (ds rest : List Char) (hd : ∀ c ∈ ds, IsDigit c)
    (hr : ¬ IsDigit (cur rest)) (hfit : (decimalValue ds : Int) ≤ INT_MAX) :
    parseInt (ds ++ rest) = .ok ((decimalValue ds : Int), rest)
      ∧ rest = (ds ++ rest).drop ds.length := by
  have hfit2 : (0 * 10 ^ ds.length + decimalValue ds : Nat) ≤ 32767 := by
    unfold INT_MAX at hfit
    have : decimalValue ds ≤ 32767 := by exact_mod_cast hfit
    omega
  have h := parseIntLoop_digits ds rest hd hr 0 hfit2
  constructor
  · unfold parseInt
    simpa using h
  · simp

/-- C9, witness: `"042x"` gives 42 with the cursor at `'x'`, and an empty digit
run gives 0 with the cursor unmoved. -/
theorem parseInt_digit_run_witness :
    (parseInt "042x".toList = .ok (42, "x".toList)
      ∧ "x".toList = "042x".toList.drop 3)
    ∧ (parseInt "x".toList = .ok (0, "x".toList)
      ∧ "x".toList = "x".toList.drop 0) :=
  ⟨parseInt_digit_run "042".toList "x".toList (by decide) (by decide) (by decide),
   parseInt_digit_run [] "x".toList (by decide) (by decide) (by decide)⟩

/-- C10: for each of the note names a, a#, b, c, c#, d, d#, e, f, f#, g, g#
followed by a character that is not an accidental marker, `parseNote` returns
0, 1, ..., 11 respectively, and -1 for r; the cursor is left at the first
character after the note name. -/
theorem parseNote_note_names (name : String) (v : Int) (rest : List Char)
    (hn : (name, v) ∈ noteNames) (h1 : cur rest ≠ '#') (h2 : cur rest ≠ 'b') :
    parseNote (name.toList ++ rest) = (v, rest) := by
  simp only [noteNames, List.mem_cons, Prod.mk.injEq, List.mem_singleton,
    List.not_mem_nil, or_false] at hn
  rcases hn with h | h | h | h | h | h | h | h | h | h | h | h | h <;>
    (obtain ⟨rfl, rfl⟩ := h
     simp [parseNote, cur_cons, noteBase, h1, h2])

/-- C10, witness: `"g#4"` gives 11 with the cursor at `'4'`. -/
theorem parseNote_note_names_witness :
    parseNote ("g#".toList ++ "4".toList) = (11, "4".toList) :=
  parseNote_note_names "g#" 11 "4".toList (by decide) (by decide) (by decide)

/-- C4, failing run: `playTune("3a4")`, one call of `tune`, then
`playTune("3b8")`.  The second compile resets `tuneIdx` and stores the new note,
but `noteTicks` is still 1, and the next call of `tune` issues no tone
operation: the timer keeps the period of the old 440 Hz note. -/
theorem playTune_keeps_noteTicks :
    ((playTune initState "3a4".toList).bind
        (fun s => playTune (tune s).1 "3b8".toList)).map
        (fun s => (s.tuneIdx, s.noteTicks, s.tuneNotes 0, (tune s).2, (tune s).1.OCR5A))
      = .ok (0, 1, { frequency := 493, length := 8 }, none, 4545) := by
  decide

/-- C5, failing run: from the initial state `buzz(440, 8)` stores the frequency
in `tuneNotes[0]` and the duration in `tuneNotes[1]`, so the one-note tune has
the stale duration 0; and after `playTune("3a4")` and one call of `tune`,
`buzz(440, 8)` leaves the duration 4 and `noteTicks = 1`. -/
theorem buzz_writes_second_note :
    ((buzz 440 8 initState).tuneLength, (buzz 440 8 initState).tuneIdx,
        (buzz 440 8 initState).tuneNotes 0, (buzz 440 8 initState).tuneNotes 1)
      = (1, 0, { frequency := 440, length := 0 }, { frequency := 0, length := 8 })
    ∧ (playTune initState "3a4".toList).map
        (fun s => ((buzz 440 8 (tune s).1).tuneNotes 0, (buzz 440 8 (tune s).1).noteTicks))
      = .ok ({ frequency := 440, length := 4 }, 1) := by
  decide

/-- C6, failing run: on `"6a4"` the linear index is 72 and `playTune` reads
`pitches[72]`, one entry past the end of the table; on `"0a4"` the index is 0
and the note is a rest. -/
theorem playTune_reads_past_pitches :
    playTune initState "6a4".toList = .error (.pitchesOutOfBounds 72)
    ∧ (playTune initState "0a4".toList).map (fun s => (s.tuneLength, s.tuneNotes 0))
      = .ok (1, { frequency := -1, length := 4 }) := by
  constructor
  · rfl
  · decide

/-- C7, failing run: on 401 tokens `3a4` joined by commas `playTune` writes
`tuneNotes[400]`, one entry past the end of the array. -/
theorem playTune_writes_past_tuneNotes :
    playTune initState (tuneText (List.replicate 401 token3a4))
      = .error (.tuneNotesOutOfBounds 400) := by
  have hv : ∀ t ∈ List.replicate 401 token3a4, t.Valid := by
    intro t ht
    rw [List.eq_of_mem_replicate ht]
    decide
  have hlen : ¬ (List.replicate 401 token3a4).length ≤ MAX_TUNE_LEN := by
    rw [List.length_replicate]
    decide
  rw [playTune_tokens _ _ hv, if_neg hlen]
  rfl

/-- C8, failing run: `"3r4"` compiles to the note `pitches[35] = 415` Hz, not to
a rest, and the scheduler starts the tone for it; only octave 0 gives a rest. -/
theorem playTune_rest_in_octave_3 :
    (playTune initState "3r4".toList).map
        (fun s => (s.tuneLength, s.tuneNotes 0, (tune s).2))
      = .ok (1, { frequency := 415, length := 4 }, some (ToneOp.start 415))
    ∧ pitches[35]? = some 415
    ∧ (playTune initState "0r4".toList).map (fun s => (s.tuneLength, s.tuneNotes 0, (tune s).2))
      = .ok (1, { frequency := -1, length := 4 }, some ToneOp.stop) := by
  decide

/-- C11, as stated, fails: on `"rb4"` the letter `r` gives -1 and the flat lowers
it to -2, which is outside `[-1, 12]`. -/
theorem parseNote_range_counterexample :
    parseNote "rb4".toList = (-2, "4".toList) ∧ 'r' ∈ noteLetters := by
  decide

/-- C11, amended: for every note letter (a-g, r, either case) followed by any text,
`parseNote` advances the cursor by 1 character for the letter, plus 1 if a
`'#'` follows it, plus 1 if a `'b'` then follows, and the value it returns
lies in `[-2, 11]`. -/
theorem parseNote_advance (c : Char) (rest : List Char) (hc : c ∈ noteLetters) :
    (parseNote (c :: rest)).2 = (c :: rest).drop (1 + sharpCount rest + flatCount rest)
      ∧ sharpCount rest ≤ 1 ∧ flatCount rest ≤ 1
      ∧ -2 ≤ (parseNote (c :: rest)).1 ∧ (parseNote (c :: rest)).1 ≤ 11 := by
  have hb := letterSemitone_bounds c hc
  rw [parseNote_letter c _ rest (noteBase_noteLetters c hc)]
  unfold flatCount sharpCount
  by_cases h1 : cur rest = '#'
  · have hd : rest.drop 1 = rest.tail := List.drop_one rest
    by_cases h2 : cur rest.tail = 'b'
    · simp only [if_pos h1, hd, if_pos h2]
      refine ⟨?_, by omega, by omega, by omega, by omega⟩
      cases rest with
      | nil => rfl
      | cons x xs => cases xs <;> rfl
    · simp only [if_pos h1, hd, if_neg h2]
      refine ⟨?_, by omega, by omega, by omega, by omega⟩
      cases rest <;> rfl
  · by_cases h2 : cur rest = 'b'
    · simp only [if_neg h1, List.drop_zero, if_pos h2]
      refine ⟨?_, by omega, by omega, by omega, by omega⟩
      cases rest <;> rfl
    · simp only [if_neg h1, List.drop_zero, if_neg h2]
      refine ⟨?_, by omega, by omega, by omega, by omega⟩
      rfl

/-- C11, witness: `"g#b4"` reads the letter, the sharp and the flat. -/
theorem parseNote_advance_witness :
    (parseNote ('g' :: "#b4".toList)).2
        = ('g' :: "#b4".toList).drop (1 + sharpCount "#b4".toList + flatCount "#b4".toList)
      ∧ sharpCount "#b4".toList ≤ 1 ∧ flatCount "#b4".toList ≤ 1
      ∧ -2 ≤ (parseNote ('g' :: "#b4".toList)).1 ∧ (parseNote ('g' :: "#b4".toList)).1 ≤ 11 :=
  parseNote_advance 'g' "#b4".toList (by decide)

/-- C12, as stated, fails: on `"x#b4"` the letter is not recognised and
`parseNote` returns 0 with the cursor still on `'x'`. -/
theorem parseNote_default_counterexample :
    parseNote "x#b4".toList = (0, "x#b4".toList) ∧ 'x' ∉ noteLetters := by
  decide

/-- C12, amended: for every input whose first character is not a recognised note
letter, `parseNote` yields 0 and leaves the cursor where it was: it reads
neither that character nor a `'#'` or `'b'` after it. -/
theorem parseNote_default (p : List Char) (h : cur p ∉ noteLetters) :
    parseNote p = (0, p) := by
  unfold parseNote
  rw [noteBase_eq_none _ h]

/-- C12, witness: the text `"x#b4"`. -/
theorem parseNote_default_witness : parseNote "x#b4".toList = (0, "x#b4".toList) :=
  parseNote_default "x#b4".toList (by decide)

/-- C15: for every letter in a-g and r and every following text, `parseNote` on
the upper-case letter returns the same value and the same cursor as on the
lower-case letter, and `playTune` on a text that begins with an octave
character and the upper-case letter gives the same result as with the
lower-case letter. -/
theorem parseNote_case_insensitive (c : Char) (hc : c ∈ lowerNoteLetters) (rest : List Char)
    (o : Char) (st : State) :
    parseNote (c.toUpper :: rest) = parseNote (c :: rest)
      ∧ playTune st (o :: c.toUpper :: rest) = playTune st (o :: c :: rest) := by
  obtain ⟨hb, hu, hl⟩ := noteBase_toUpper c hc
  have hn : noteBase c ≠ none := by
    revert c
    decide
  have hp := parseNote_congr c.toUpper c rest hb hn
  refine ⟨hp, ?_⟩
  unfold playTune
  simp only [List.length_cons]
  rw [playTuneLoop, playTuneLoop]
  by_cases ho : o = Char.ofNat 0
  · simp only [cur_cons, if_pos ho]
  · simp only [cur_cons, List.tail_cons, if_neg ho, if_neg hu, if_neg hl, hp]

/-- C15, witness: `"3G#4"` and `"3g#4"`. -/
theorem parseNote_case_insensitive_witness :
    parseNote ('g'.toUpper :: "#4".toList) = parseNote ('g' :: "#4".toList)
      ∧ playTune initState ('3' :: 'g'.toUpper :: "#4".toList)
        = playTune initState ('3' :: 'g' :: "#4".toList) :=
  parseNote_case_insensitive 'g' (by decide) "#4".toList '3' initState

set_option maxRecDepth 100000 in
/-- C20: the pitch table has exactly 72 entries, runs from 55 to 3322, is strictly
increasing and positive, and every entry one octave up differs from the
double of the entry below it by at most 2; so every frequency read from the
table is positive and is not the REST sentinel. -/
theorem pitches_ladder :
    pitches.length = OCTAVES * NOTES_PER_OCTAVE ∧ pitches.length = 72
      ∧ pitches.head? = some 55 ∧ pitches.getLast? = some 3322
      ∧ pitches.Pairwise (fun a b => a < b)
      ∧ (∀ f ∈ pitches, 0 < f)
      ∧ (∀ i < 60, (pitches.getD (i + 12) 0 - 2 * pitches.getD i 0).natAbs ≤ 2)
      ∧ (∀ (n : Nat) (f : Int), pitches[n]? = some f → 0 < f ∧ f ≠ REST) := by
  have hpos : ∀ f ∈ pitches, 0 < f := by decide
  refine ⟨by decide, by decide, by decide, by decide, by decide, hpos, by decide, ?_⟩
  intro n f hf
  have h := hpos f (List.getElem?_mem hf)
  exact ⟨h, by unfold REST; omega⟩

/-- C13: in every state in which the tune is finished (`tuneIdx >= tuneLength`),
`tune` leaves the tone output stopped, leaves `tuneIdx`, `noteTicks`,
`tuneLength` and the stored notes unchanged, and any number of calls (at least
one) give the same state as one call. -/
theorem tune_finished_idempotent (st : State) (h : st.tuneLength ≤ st.tuneIdx) :
    toneStopped (tune st).1 ∧ (tune st).2 = some ToneOp.stop
      ∧ (tune st).1.tuneIdx = st.tuneIdx ∧ (tune st).1.noteTicks = st.noteTicks
      ∧ (tune st).1.tuneLength = st.tuneLength ∧ (tune st).1.tuneNotes = st.tuneNotes
      ∧ ∀ n : Nat, tuneN (n + 1) st = (tune st).1 := by
  have ht := tune_finished st h
  refine ⟨?_, ?_, ?_, ?_, ?_, ?_, ?_⟩
  · rw [ht]; exact ⟨rfl, rfl⟩
  · rw [ht]
  · rw [ht]
  · rw [ht]
  · rw [ht]
  · rw [ht]
  · intro n
    show tuneN n (tune st).1 = (tune st).1
    apply tuneN_stopped
    · rw [ht]; exact h
    · rw [ht]; exact ⟨rfl, rfl⟩

/-- C13, witness: the initial state, whose tune is empty. -/
theorem tune_finished_idempotent_witness :
    toneStopped (tune initState).1 ∧ (tune initState).2 = some ToneOp.stop
      ∧ (tune initState).1.tuneIdx = initState.tuneIdx
      ∧ (tune initState).1.noteTicks = initState.noteTicks
      ∧ (tune initState).1.tuneLength = initState.tuneLength
      ∧ (tune initState).1.tuneNotes = initState.tuneNotes
      ∧ ∀ n : Nat, tuneN (n + 1) initState = (tune initState).1 :=
  tune_finished_idempotent initState (by decide)

/-- C14, as stated, fails: after `playTune("3a4")` and one call of `tune` the timer
sounds 440 Hz; `playTune("")` then makes the scheduler Idle but leaves the
timer running (`TCCR5A = 0x40`, `TCCR5B = 0x0A`), and so does `playTune("3")`.
And the texts `"3a"`, `"34"` and `"3,"`, which hold no complete token, are each
compiled to one note of 440 Hz, which the next call of `tune` starts. -/
theorem playTune_empty_counterexample :
    ((playTune initState "3a4".toList).bind (fun s => playTune (tune s).1 [])).map
        (fun s => (s.tuneLength, s.tuneIdx, s.TCCR5A, s.TCCR5B, s.OCR5A))
      = .ok (0, 0, 64, 10, 4545)
    ∧ ((playTune initState "3a4".toList).bind (fun s => playTune (tune s).1 "3".toList)).map
        (fun s => (s.tuneLength, s.tuneIdx, s.TCCR5A, s.TCCR5B, decide (toneStopped s)))
      = .ok (0, 0, 64, 10, false)
    ∧ (playTune initState "3a".toList).map
        (fun s => (s.tuneLength, s.tuneNotes 0, (tune s).2, decide (toneStopped (tune s).1)))
      = .ok (1, { frequency := 440, length := 0 }, some (ToneOp.start 440), false)
    ∧ (playTune initState "34".toList).map
        (fun s => (s.tuneLength, s.tuneNotes 0, (tune s).2, decide (toneStopped (tune s).1)))
      = .ok (1, { frequency := 440, length := 4 }, some (ToneOp.start 440), false)
    ∧ (playTune initState "3,".toList).map
        (fun s => (s.tuneLength, s.tuneNotes 0, (tune s).2, decide (toneStopped (tune s).1)))
      = .ok (1, { frequency := 440, length := 0 }, some (ToneOp.start 440), false) := by
  refine ⟨?_, ?_, ?_, ?_, ?_⟩ <;> decide

/-- C14, amended: `playTune` on the empty text or on a single character, from any
prior state, returns with `tuneLength = 0` and `tuneIdx = 0` and leaves the
timer registers as they were; the next call of `tune` stops the tone output,
and the scheduler stays Idle.  On every text with two characters or more on
which it returns, complete token or not, `playTune` stores at least one note
(`tuneLength >= 1`), again with `tuneIdx = 0` and the timer left as it was. -/
theorem playTune_empty (st : State) (p : List Char) :
    (p.length ≤ 1 →
      ∃ st1, playTune st p = .ok st1 ∧ st1.tuneLength = 0 ∧ st1.tuneIdx = 0
        ∧ st1.TCCR5A = st.TCCR5A ∧ st1.TCCR5B = st.TCCR5B
        ∧ (tune st1).2 = some ToneOp.stop ∧ toneStopped (tune st1).1
        ∧ (tune st1).1.tuneLength = 0 ∧ (tune st1).1.tuneIdx = 0)
      ∧ (cur p ≠ Char.ofNat 0 → cur p.tail ≠ Char.ofNat 0 →
          ∀ st1, playTune st p = .ok st1 →
            1 ≤ st1.tuneLength ∧ st1.tuneIdx = 0
              ∧ st1.TCCR5A = st.TCCR5A ∧ st1.TCCR5B = st.TCCR5B) := by
  constructor
  · intro h
    refine ⟨{ st with tuneLength := 0, tuneIdx := 0 }, playTune_short st p h,
      rfl, rfl, rfl, rfl, ?_⟩
    rw [tune_finished _ (Nat.le_refl _)]
    exact ⟨rfl, ⟨rfl, rfl⟩, rfl, rfl⟩
  · intro h0 h1 st1 h
    obtain ⟨r1, r2, _, _⟩ := playTune_registers st st1 p h
    exact ⟨playTune_two_chars st st1 p h0 h1 h, (playTune_noteTicks st st1 p h).2, r1, r2⟩

/-- C14, witness: the lone octave digit `"3"` and the text `"3a"` in the initial
state. -/
theorem playTune_empty_witness :
    (∃ st1, playTune initState "3".toList = .ok st1 ∧ st1.tuneLength = 0 ∧ st1.tuneIdx = 0
        ∧ st1.TCCR5A = initState.TCCR5A ∧ st1.TCCR5B = initState.TCCR5B
        ∧ (tune st1).2 = some ToneOp.stop ∧ toneStopped (tune st1).1
        ∧ (tune st1).1.tuneLength = 0 ∧ (tune st1).1.tuneIdx = 0)
      ∧ (∀ st1, playTune initState "3a".toList = .ok st1 →
          1 ≤ st1.tuneLength ∧ st1.tuneIdx = 0
            ∧ st1.TCCR5A = initState.TCCR5A ∧ st1.TCCR5B = initState.TCCR5B) :=
  ⟨(playTune_empty initState "3".toList).1 (by decide),
   (playTune_empty initState "3a".toList).2 (by decide) (by decide)⟩

/-- C16: in every state reachable from the initial state by calls of `playTune`
that return, of `buzz` and of `tune`, `tuneIdx <= tuneLength`; and when `tune`
is called with `tuneIdx = tuneLength` the tone output is stopped afterwards. -/
theorem reachable_tuneIdx_le (st : State) (h : Reachable st) :
    st.tuneIdx ≤ st.tuneLength
      ∧ (st.tuneIdx = st.tuneLength → toneStopped (tune st).1) := by
  constructor
  · induction h with
    | init => exact Nat.le_refl _
    | compile st st1 p _ hp _ =>
      rw [(playTune_noteTicks st st1 p hp).2]
      exact Nat.zero_le _
    | buzzed st f d _ _ => exact Nat.zero_le _
    | tick st _ ih =>
      by_cases hfin : st.tuneLength ≤ st.tuneIdx
      · rw [tune_finished st hfin]
        exact ih
      · obtain ⟨_, hl, hi, _⟩ := tune_playing st (by omega)
        rw [hl, hi]
        split <;> omega
  · intro he
    rw [tune_finished st (by omega)]
    exact ⟨rfl, rfl⟩

/-- C16, witness: the state after `buzz(440, 8)` and one call of `tune`. -/
theorem reachable_tuneIdx_le_witness :
    (tune (buzz 440 8 initState)).1.tuneIdx ≤ (tune (buzz 440 8 initState)).1.tuneLength
      ∧ ((tune (buzz 440 8 initState)).1.tuneIdx = (tune (buzz 440 8 initState)).1.tuneLength →
          toneStopped (tune (tune (buzz 440 8 initState)).1).1) :=
  reachable_tuneIdx_le _ (Reachable.tick _ (Reachable.buzzed _ 440 8 Reachable.init))

/-- C17, failing run: `playTune("3a8")`, five calls of `tune`, then
`playTune("3b2")`.  Every installed note has a duration of at least 1, the
note `(493, 2)` is current, and `noteTicks = 5` is not below its duration 2. -/
theorem playTune_breaks_noteTicks_bound :
    ((playTune initState "3a8".toList).bind (fun s => playTune (tuneN 5 s) "3b2".toList)).map
        (fun s => (s.tuneIdx, s.tuneLength, s.noteTicks, s.tuneNotes s.tuneIdx))
      = .ok (0, 1, 5, { frequency := 493, length := 2 }) := by
  decide

/-- C18: a tune of `n = tuneLength` notes with durations `d_i`, started from
`tuneIdx = 0` and `noteTicks = 0`, reaches `tuneIdx = n` after exactly the sum
over `i < n` of `max(d_i, 1)` calls of `tune` and not before; the start-of-note
action of note `k` is issued by call number `1 + sum over i < k of max(d_i, 1)`
(the call made after `startTick st k` calls), and the other calls before the
end of the note issue nothing.  A note of duration 0 occupies one call. -/
theorem tune_schedule (st : State) (hi : st.tuneIdx = 0) (ht : st.noteTicks = 0) :
    (∀ k, startTick st k = ∑ i in Finset.range k, max (st.tuneNotes i).length 1)
      ∧ (tuneN (startTick st st.tuneLength) st).tuneIdx = st.tuneLength
      ∧ (∀ j, j < startTick st st.tuneLength → (tuneN j st).tuneIdx < st.tuneLength)
      ∧ (∀ k, k < st.tuneLength →
          (tune (tuneN (startTick st k) st)).2 = some (noteAction (st.tuneNotes k)))
      ∧ (∀ k j, k < st.tuneLength → startTick st k < j → j < startTick st (k + 1) →
          (tune (tuneN j st)).2 = none) := by
  refine ⟨startTick_eq_sum st, ?_, ?_, ?_, ?_⟩
  · exact (atNote_start st hi ht _ (Nat.le_refl _)).2.2.1
  · intro j hj
    obtain ⟨k, hk, m, hm, e⟩ := exists_note_of_lt_startTick st _ j hj
    have h := atNote_within st k _ hk (atNote_start st hi ht k (by omega)) m hm
    rw [e, h.2.2.1]
    exact hk
  · intro k hk
    have h := atNote_start st hi ht k (by omega)
    rw [h.op hk, if_pos rfl]
  · intro k j hk h1 h2
    rw [startTick] at h2
    obtain ⟨m, rfl⟩ : ∃ m, j = startTick st k + m := ⟨j - startTick st k, by omega⟩
    have h := atNote_within st k _ hk (atNote_start st hi ht k (by omega)) m (by omega)
    rw [h.op hk, if_neg (by omega)]

/-- C18, witness: the tune `(440, 2), (REST, 0), (493, 1)` takes `2 + 1 + 1` calls;
the rest of duration 0 occupies call 3. -/
theorem tune_schedule_witness :
    (startTick threeNoteState 3 = 4
      ∧ ticks 5 threeNoteState
        = [some (ToneOp.start 440), none, some ToneOp.stop, some (ToneOp.start 493),
            some ToneOp.stop]
      ∧ (tuneN 3 threeNoteState).tuneIdx = 2 ∧ (tuneN 4 threeNoteState).tuneIdx = 3)
    ∧ ((∀ k, startTick threeNoteState k
          = ∑ i in Finset.range k, max (threeNoteState.tuneNotes i).length 1)
      ∧ (tuneN (startTick threeNoteState threeNoteState.tuneLength) threeNoteState).tuneIdx
          = threeNoteState.tuneLength
      ∧ (∀ j, j < startTick threeNoteState threeNoteState.tuneLength →
          (tuneN j threeNoteState).tuneIdx < threeNoteState.tuneLength)
      ∧ (∀ k, k < threeNoteState.tuneLength →
          (tune (tuneN (startTick threeNoteState k) threeNoteState)).2
            = some (noteAction (threeNoteState.tuneNotes k)))
      ∧ (∀ k j, k < threeNoteState.tuneLength → startTick threeNoteState k < j →
          j < startTick threeNoteState (k + 1) →
          (tune (tuneN j threeNoteState)).2 = none)) :=
  ⟨by decide, tune_schedule threeNoteState rfl rfl⟩

/-- C19: on every text `p` of length `L` the loop of `playTune` terminates, within
`L + 1` tests of its condition and with the same result for any larger bound;
every pass through the body that reaches its end advances the cursor by at
least one character and keeps it inside the text; when the loop returns, the
cursor is inside the text, on a terminator, and at most `max(L - 1, 0)` notes
were stored. -/
theorem playTune_terminates (st : State) (p : List Char) :
    playTune st p ≠ .error .outOfFuel
      ∧ (∀ fuel, p.length < fuel →
          playTuneLoop fuel p 0 st.tuneNotes = playTuneLoop (p.length + 1) p 0 st.tuneNotes)
      ∧ (∀ (q : List Char) (tl : Nat) (notes : Nat → Note) (c : Compiled),
          playTuneBody q tl notes = .ok (.next c) → c.rest.length < q.length ∧ c.rest <:+ q)
      ∧ (∀ c, playTuneLoop (p.length + 1) p 0 st.tuneNotes = .ok c →
          c.rest <:+ p ∧ cur c.rest = Char.ofNat 0 ∧ c.tl ≤ p.length - 1)
      ∧ (∀ st1, playTune st p = .ok st1 → st1.tuneLength ≤ p.length - 1) := by
  have hloop : ∀ c, playTuneLoop (p.length + 1) p 0 st.tuneNotes = .ok c →
      c.rest <:+ p ∧ cur c.rest = Char.ofNat 0 ∧ c.tl ≤ p.length - 1 := by
    intro c hc
    obtain ⟨h1, h2, _, h4⟩ := playTuneLoop_ok _ _ _ _ _ hc
    exact ⟨h1, h2, by rcases h4 with h4 | h4 <;> omega⟩
  refine ⟨playTune_ne_outOfFuel st p, ?_, ?_, hloop, ?_⟩
  · intro fuel hf
    exact playTuneLoop_fuel _ _ _ _ _ hf (Nat.lt_succ_self _)
  · intro q tl notes c hb
    obtain ⟨_, h2, h3, _⟩ := playTuneBody_next q tl notes c hb
    exact ⟨by omega, h2.trans (List.tail_suffix q)⟩
  · intro st1 h
    obtain ⟨c, hc, e⟩ := playTune_tuneLength st st1 p h
    rw [e]
    exact (hloop c hc).2.2

end Hexascroller
